import Mathlib

set_option maxHeartbeats 1000000
set_option autoImplicit false

/-!
Verification of the mongo-sync-check collection reconciliation engine
(`src/script.py`).  The JSON/BSON document model, the `make_hashable`
canonicalizer, the `_id`-keyed reconciliation of `compare_collections`,
and the (external, but semantics-bearing) `DeepDiff(_, _, ignore_order=False)`
structural diff are embedded as executable Lean functions, and the spec's
testable properties are settled against them.
-/

/-- JSON-like document values as delivered by the MongoDB driver: scalars,
order-sensitive arrays, insertion-ordered documents (modelled as association
lists with string keys, as BSON keys are always strings), and ObjectId values
carrying their 24-character hexadecimal rendering. -/
inductive Value where
  | vnull : Value
  | vbool : Bool → Value
  | vint : Int → Value
  | vstr : String → Value
  | void : String → Value
  | varr : List Value → Value
  | vobj : List (String × Value) → Value

/-- A document is a Python dict: an insertion-ordered association list. -/
abbrev Doc := List (String × Value)

theorem sizeOf_lt_of_mem_arr {x : Value} {xs : List Value} (hx : x ∈ xs) :
    sizeOf x < sizeOf (Value.varr xs) := by
  have h := List.sizeOf_lt_of_mem hx
  simp only [Value.varr.sizeOf_spec]
  omega

theorem sizeOf_lt_of_mem_obj {kv : String × Value} {fs : List (String × Value)}
    (hkv : kv ∈ fs) : sizeOf kv.2 < sizeOf (Value.vobj fs) := by
  have h := List.sizeOf_lt_of_mem hkv
  obtain ⟨k, v⟩ := kv
  simp only [Value.vobj.sizeOf_spec, Prod.mk.sizeOf_spec] at *
  omega

/-- Strong induction on the size of a value. -/
theorem value_ind (P : Value → Prop)
    (step : ∀ v, (∀ w, sizeOf w < sizeOf v → P w) → P v) : ∀ v, P v := by
  intro v
  generalize h : sizeOf v = n
  induction n using Nat.strong_induction_on generalizing v with
  | _ n ih => exact step v (fun w hw => ih (sizeOf w) (h ▸ hw) w rfl)

/-- Structural induction for `Value`, with membership hypotheses for the
nested lists. -/
theorem valueInduction (P : Value → Prop)
    (hnull : P .vnull) (hbool : ∀ b, P (.vbool b)) (hint : ∀ n, P (.vint n))
    (hstr : ∀ s, P (.vstr s)) (hoid : ∀ s, P (.void s))
    (harr : ∀ xs, (∀ x ∈ xs, P x) → P (.varr xs))
    (hobj : ∀ fs, (∀ kv ∈ fs, P kv.2) → P (.vobj fs)) :
    ∀ v, P v := by
  apply value_ind
  intro v ih
  match v with
  | .vnull => exact hnull
  | .vbool b => exact hbool b
  | .vint n => exact hint n
  | .vstr s => exact hstr s
  | .void s => exact hoid s
  | .varr xs => exact harr xs (fun x hx => ih x (sizeOf_lt_of_mem_arr hx))
  | .vobj fs => exact hobj fs (fun kv hkv => ih kv.2 (sizeOf_lt_of_mem_obj hkv))

mutual
/-- Structural (syntactic) equality of values. -/
def valEq : Value → Value → Bool
  | .vnull, .vnull => true
  | .vbool a, .vbool b => a == b
  | .vint a, .vint b => a == b
  | .vstr a, .vstr b => a == b
  | .void a, .void b => a == b
  | .varr xs, .varr ys => valEqList xs ys
  | .vobj fs, .vobj gs => valEqFields fs gs
  | _, _ => false
termination_by a _ => sizeOf a
def valEqList : List Value → List Value → Bool
  | [], [] => true
  | x :: xs, y :: ys => valEq x y && valEqList xs ys
  | _, _ => false
termination_by xs _ => sizeOf xs
def valEqFields : List (String × Value) → List (String × Value) → Bool
  | [], [] => true
  | (k, v) :: fs, (k2, w) :: gs => k == k2 && valEq v w && valEqFields fs gs
  | _, _ => false
termination_by fs _ => sizeOf fs
end

theorem valEqList_iff_of {xs : List Value}
    (IH : ∀ x ∈ xs, ∀ y, (valEq x y = true ↔ x = y)) :
    ∀ ys, valEqList xs ys = true ↔ xs = ys := by
  induction xs with
  | nil => intro ys; cases ys <;> simp [valEqList]
  | cons x xs ihx =>
    intro ys
    cases ys with
    | nil => simp [valEqList]
    | cons y ys =>
      have h1 := IH x (by simp) y
      have h2 := ihx (fun x hx => IH x (by simp [hx])) ys
      simp [valEqList, h1, h2]

theorem valEqFields_iff_of {fs : List (String × Value)}
    (IH : ∀ kv ∈ fs, ∀ w, (valEq kv.2 w = true ↔ kv.2 = w)) :
    ∀ gs, valEqFields fs gs = true ↔ fs = gs := by
  induction fs with
  | nil => intro gs; cases gs <;> simp [valEqFields]
  | cons kv fs ihf =>
    intro gs
    obtain ⟨k, v⟩ := kv
    cases gs with
    | nil => simp [valEqFields]
    | cons kw gs =>
      obtain ⟨k2, w⟩ := kw
      have h1 := IH (k, v) (by simp) w
      have h2 := ihf (fun kv hkv => IH kv (by simp [hkv])) gs
      simp [valEqFields, h1, h2, Prod.ext_iff]

theorem valEq_iff : ∀ a b : Value, valEq a b = true ↔ a = b := by
  apply valueInduction (P := fun a => ∀ b, valEq a b = true ↔ a = b)
  case hnull => intro b; cases b <;> simp [valEq]
  case hbool => intro x b; cases b <;> simp [valEq]
  case hint => intro x b; cases b <;> simp [valEq]
  case hstr => intro x b; cases b <;> simp [valEq]
  case hoid => intro x b; cases b <;> simp [valEq]
  case harr =>
    intro xs IH b
    cases b <;> simp [valEq]
    exact valEqList_iff_of IH _
  case hobj =>
    intro fs IH b
    cases b <;> simp [valEq]
    exact valEqFields_iff_of IH _

instance : DecidableEq Value := fun a b => decidable_of_iff _ (valEq_iff a b)

mutual
/-- Python `repr` of a document value (`repr(ObjectId(h)) = "ObjectId('h')"`,
strings get quoted); used by `str` on containers. -/
def pyRepr : Value → String
  | .vnull => "None"
  | .vbool true => "True"
  | .vbool false => "False"
  | .vint n => toString n
  | .vstr s => "\x27" ++ s ++ "\x27"
  | .void s => "ObjectId(\x27" ++ s ++ "\x27)"
  | .varr xs => "[" ++ reprItems xs ++ "]"
  | .vobj fs => "\x7b" ++ reprFields fs ++ "\x7d"
termination_by a => sizeOf a
def reprItems : List Value → String
  | [] => ""
  | [x] => pyRepr x
  | x :: xs => pyRepr x ++ ", " ++ reprItems xs
termination_by xs => sizeOf xs
def reprFields : List (String × Value) → String
  | [] => ""
  | [(k, v)] => "\x27" ++ k ++ "\x27: " ++ pyRepr v
  | (k, v) :: fs => "\x27" ++ k ++ "\x27: " ++ pyRepr v ++ ", " ++ reprFields fs
termination_by fs => sizeOf fs
end

/-- Python `str` of a document value, as applied to `doc['_id']` on lines 77-78
of `script.py` (`str(ObjectId)` is its 24-character hex rendering). -/
def pyStr : Value → String
  | .vnull => "None"
  | .vbool true => "True"
  | .vbool false => "False"
  | .vint n => toString n
  | .vstr s => s
  | .void s => s
  | v => pyRepr v

/-- Python dict lookup `doc[k]` on an association list; the first binding
wins, matching dict semantics where keys are unique. -/
def lookupField (d : Doc) (k : String) : Option Value :=
  (d.find? (fun kv => kv.1 == k)).map (fun kv => kv.2)

/-- Python `k in doc`. -/
def hasKey (d : Doc) (k : String) : Bool :=
  d.any (fun kv => kv.1 == k)

/-- Lines 77-78 value filter:
`{k: v for k, v in doc.items() if k not in exclude_fields + ['_id']}`. -/
def stripDoc (excl : List String) (d : Doc) : Doc :=
  d.filter (fun kv => !(excl.contains kv.1) && !(kv.1 == "_id"))

/-- The stringified identity of a document: `str(doc['_id'])` when the
`_id` field is present. -/
def idStr (d : Doc) : Option String := (lookupField d "_id").map pyStr

/-- The `_id`-indexed dictionaries built on lines 77-78. -/
abbrev Dict := List (String × Doc)

def dictKeys (m : Dict) : List String := m.map (fun kv => kv.1)

def dictGet (m : Dict) (k : String) : Option Doc :=
  (m.find? (fun kv => kv.1 == k)).map (fun kv => kv.2)

/-- Python dict assignment `m[k] = v`: replaces the binding in place if the
key is present (keys are unique by invariant), otherwise appends it. -/
def dictUpsert : Dict → String → Doc → Dict
  | [], k, v => [(k, v)]
  | (k2, w) :: m, k, v =>
    if k2 == k then (k, v) :: m else (k2, w) :: dictUpsert m k v

/-- The dict comprehension of lines 77-78, threading the accumulated dict:
`{str(doc['_id']): {k: v for k, v in doc.items() if k not in exclude_fields
+ ['_id']} for doc in data}`.  Fails (KeyError, modelled by `none`) when a
document lacks the `_id` field; duplicate stringified identities resolve
last-write-wins. -/
def buildDictFrom (excl : List String) (m : Dict) : List Doc → Option Dict
  | [] => some m
  | d :: rest =>
    match lookupField d "_id" with
    | some idv => buildDictFrom excl (dictUpsert m (pyStr idv) (stripDoc excl d)) rest
    | none => none

def buildDict (excl : List String) (docs : List Doc) : Option Dict :=
  buildDictFrom excl [] docs

/-- One step of a DeepDiff report path (`root['field']` / `root[3]`). -/
inductive PathSeg where
  | fieldSeg : String → PathSeg
  | idxSeg : Nat → PathSeg
deriving DecidableEq

/-- One DeepDiff report kind (the keys of `DeepDiff(...).to_dict()`). -/
inductive Change where
  | valuesChanged : Value → Value → Change
  | typeChanges : Value → Value → Change
  | dictItemAdded : Value → Change
  | dictItemRemoved : Value → Change
  | iterItemAdded : Value → Change
  | iterItemRemoved : Value → Change
deriving DecidableEq

/-- One reported difference: the path where it occurs, and what changed. -/
abbrev DiffItem := List PathSeg × Change

/-- Push a path step onto every reported difference of a sub-diff. -/
def withSeg (s : PathSeg) (items : List DiffItem) : List DiffItem :=
  items.map (fun it => (s :: it.1, it.2))

mutual
/-- Model of `DeepDiff(a, b, ignore_order=False)` on JSON-like values, as a
flat list of (path, change) reports: dicts compare by key (removed / added /
recurse on common keys, insertion order irrelevant), sequences compare
element-wise by position with extra tail elements reported added/removed,
scalars of equal type report `values_changed`, and any type mismatch reports
`type_changes`.  The diff is empty exactly when DeepDiff returns `{}`. -/
def deepDiff : Value → Value → List DiffItem
  | .vobj fs, .vobj gs =>
    ((fs.filter (fun kv => !(hasKey gs kv.1))).map
      (fun kv => ([PathSeg.fieldSeg kv.1], Change.dictItemRemoved kv.2)))
    ++ ((gs.filter (fun kv => !(hasKey fs kv.1))).map
      (fun kv => ([PathSeg.fieldSeg kv.1], Change.dictItemAdded kv.2)))
    ++ diffCommon fs gs
  | .varr xs, .varr ys => diffArr 0 xs ys
  | .vnull, .vnull => []
  | .vbool a, .vbool b =>
    if a = b then [] else [([], Change.valuesChanged (.vbool a) (.vbool b))]
  | .vint a, .vint b =>
    if a = b then [] else [([], Change.valuesChanged (.vint a) (.vint b))]
  | .vstr a, .vstr b =>
    if a = b then [] else [([], Change.valuesChanged (.vstr a) (.vstr b))]
  | .void a, .void b =>
    if a = b then [] else [([], Change.valuesChanged (.void a) (.void b))]
  | a, b => [([], Change.typeChanges a b)]
termination_by a _ => sizeOf a
/-- Dict diff over the left dict's entries whose key also occurs on the
right: recurse into the two values under the key's path step. -/
def diffCommon : List (String × Value) → List (String × Value) → List DiffItem
  | [], _ => []
  | (k, v) :: fs, gs =>
    (match lookupField gs k with
     | some w => withSeg (PathSeg.fieldSeg k) (deepDiff v w)
     | none => []) ++ diffCommon fs gs
termination_by fs _ => sizeOf fs
/-- Sequence diff: element-wise by position from index `i`; length mismatch
reports the extra tail as added (right longer) or removed (left longer). -/
def diffArr : Nat → List Value → List Value → List DiffItem
  | i, x :: xs, y :: ys => withSeg (PathSeg.idxSeg i) (deepDiff x y) ++ diffArr (i + 1) xs ys
  | i, [], ys => (ys.enumFrom i).map (fun p => ([PathSeg.idxSeg p.1], Change.iterItemAdded p.2))
  | i, xs, [] => (xs.enumFrom i).map (fun p => ([PathSeg.idxSeg p.1], Change.iterItemRemoved p.2))
termination_by _ xs _ => sizeOf xs
end

mutual
/-- DeepDiff's (type-strict) deep equality on JSON-like values: dicts are
equal when they bind the same keys to deeply-equal values regardless of
insertion order; sequences are compared element-wise in order. -/
def deepEq : Value → Value → Bool
  | .vnull, .vnull => true
  | .vbool a, .vbool b => a == b
  | .vint a, .vint b => a == b
  | .vstr a, .vstr b => a == b
  | .void a, .void b => a == b
  | .varr xs, .varr ys => deepEqList xs ys
  | .vobj fs, .vobj gs => deepEqFields fs gs && gs.all (fun kv => hasKey fs kv.1)
  | _, _ => false
termination_by a _ => sizeOf a
def deepEqList : List Value → List Value → Bool
  | [], [] => true
  | x :: xs, y :: ys => deepEq x y && deepEqList xs ys
  | _, _ => false
termination_by xs _ => sizeOf xs
def deepEqFields : List (String × Value) → List (String × Value) → Bool
  | [], _ => true
  | (k, v) :: fs, gs =>
    (match lookupField gs k with
     | some w => deepEq v w
     | none => false) && deepEqFields fs gs
termination_by fs _ => sizeOf fs
end

/-- Keys of an association list are pairwise distinct (always true of a
Python dict). -/
def nodupKeysB : List (String × Value) → Bool
  | [] => true
  | (k, _) :: fs => !(fs.any (fun kv => kv.1 == k)) && nodupKeysB fs

mutual
/-- Wellformedness of a value as a Python object: every nested dict has
pairwise-distinct keys. -/
def wfVal : Value → Bool
  | .varr xs => wfList xs
  | .vobj fs => nodupKeysB fs && wfFields fs
  | _ => true
termination_by a => sizeOf a
def wfList : List Value → Bool
  | [] => true
  | x :: xs => wfVal x && wfList xs
termination_by xs => sizeOf xs
def wfFields : List (String × Value) → Bool
  | [] => true
  | (_, v) :: fs => wfVal v && wfFields fs
termination_by fs => sizeOf fs
end

/-- A wellformed document: distinct keys, wellformed values. -/
def wfDoc (d : Doc) : Bool := nodupKeysB d && wfFields d

/-- One entry of `content_differences` (lines 100-105). -/
structure DiffEntry where
  id : String
  source_doc : Doc
  target_doc : Doc
  diff : List DiffItem
deriving DecidableEq

/-- The dictionary returned by `compare_collections` (lines 107-112). -/
structure CompareResult where
  missing_in_source : List Doc
  missing_in_target : List Doc
  common_count : Nat
  content_differences : List DiffEntry
deriving DecidableEq

/-- Lines 95-105: the `content_differences` entry for one common `_id`,
present exactly when the DeepDiff of the two stripped documents is
non-empty. -/
def diffEntryFor (sd td : Dict) (i : String) : Option DiffEntry :=
  match dictGet sd i, dictGet td i with
  | some s, some t =>
    let d := deepDiff (.vobj s) (.vobj t)
    if d.isEmpty then none else some ⟨i, s, t, d⟩
  | _, _ => none

/-- Lines 80-112 of `compare_collections`, after the two `_id`-indexed
dictionaries have been built: set reconciliation of the key sets and content
diffing of the common keys.  The iteration order of the Python sets
`missing_in_source_ids`, `missing_in_target_ids` and `common_ids` is
unspecified; this model fixes it to the (deterministic) key insertion order
of the respective dict. -/
def compareDicts (sd td : Dict) : CompareResult :=
  let sIds := dictKeys sd
  let tIds := dictKeys td
  { missing_in_source := (tIds.filter (fun i => !(sIds.contains i))).map
      (fun i => ("_id", Value.vstr i) :: ((dictGet td i).getD []))
    missing_in_target := (sIds.filter (fun i => !(tIds.contains i))).map
      (fun i => ("_id", Value.vstr i) :: ((dictGet sd i).getD []))
    common_count := (sIds.filter (fun i => tIds.contains i)).length
    content_differences :=
      (sIds.filter (fun i => tIds.contains i)).filterMap (diffEntryFor sd td) }

/-- Model of `compare_collections` (lines 68-124): builds the two
`_id`-indexed dictionaries (KeyError, hence `none`, when any document lacks
`_id`) and reconciles them.  The `collection_name` argument is used only for
logging. -/
def compare_collections (source_data target_data : List Doc)
    (collection_name : String) (exclude_fields : List String) :
    Option CompareResult :=
  let _ := collection_name
  match buildDict exclude_fields source_data, buildDict exclude_fields target_data with
  | some sd, some td => some (compareDicts sd td)
  | _, _ => none

/-! ### Association-list and dictionary lemmas -/

theorem lookupField_cons {k2 : String} {w : Value} {d : Doc} {k : String} :
    lookupField ((k2, w) :: d) k = if k2 = k then some w else lookupField d k := by
  by_cases h : k2 = k
  · simp [lookupField, List.find?_cons_of_pos, h]
  · simp only [lookupField, if_neg h]
    rw [List.find?_cons_of_neg]
    simpa using h

theorem hasKey_cons {k2 : String} {w : Value} {d : Doc} {k : String} :
    hasKey ((k2, w) :: d) k = (k2 == k || hasKey d k) := by
  simp [hasKey]

theorem hasKey_iff {d : Doc} {k : String} : hasKey d k = true ↔ ∃ v, (k, v) ∈ d := by
  simp only [hasKey, List.any_eq_true, beq_iff_eq]
  constructor
  · rintro ⟨⟨k2, v⟩, hm, rfl⟩
    exact ⟨v, hm⟩
  · rintro ⟨v, hm⟩
    exact ⟨(k, v), hm, rfl⟩

theorem lookupField_isSome {d : Doc} {k : String} :
    (lookupField d k).isSome = hasKey d k := by
  induction d with
  | nil => rfl
  | cons kv d ih =>
    obtain ⟨k2, w⟩ := kv
    by_cases h : k2 = k <;> simp [lookupField_cons, hasKey_cons, h, ih]

theorem hasKey_of_mem {d : Doc} {kv : String × Value} (h : kv ∈ d) :
    hasKey d kv.1 = true :=
  hasKey_iff.mpr ⟨kv.2, by simpa using h⟩

theorem nodupKeysB_iff {fs : Doc} :
    nodupKeysB fs = true ↔ (fs.map Prod.fst).Nodup := by
  induction fs with
  | nil => simp [nodupKeysB]
  | cons kv fs ih =>
    obtain ⟨k, v⟩ := kv
    simp only [nodupKeysB, List.map_cons, List.nodup_cons, Bool.and_eq_true,
      Bool.not_eq_true', ← ih, List.any_eq_false, beq_iff_eq, List.mem_map]
    constructor
    · rintro ⟨h1, h2⟩
      refine ⟨?_, h2⟩
      rintro ⟨kv2, hm, he⟩
      exact absurd he (h1 kv2 hm)
    · rintro ⟨h1, h2⟩
      exact ⟨fun kv2 hm he => h1 ⟨kv2, hm, he⟩, h2⟩

theorem lookup_eq_of_nodupKeys {d : Doc} {k : String} {v : Value}
    (hnd : nodupKeysB d = true) (hm : (k, v) ∈ d) : lookupField d k = some v := by
  induction d with
  | nil => cases hm
  | cons kv d ih =>
    obtain ⟨k2, w⟩ := kv
    simp only [nodupKeysB, Bool.and_eq_true, Bool.not_eq_true', List.any_eq_false,
      beq_iff_eq] at hnd
    rw [lookupField_cons]
    rcases List.mem_cons.mp hm with he | hm2
    · cases he
      simp
    · have hk2 : k2 ≠ k := fun he => hnd.1 (k, v) hm2 (by simpa using he.symm)
      rw [if_neg hk2]
      exact ih hnd.2 hm2

theorem wfFields_iff {fs : Doc} :
    wfFields fs = true ↔ ∀ kv ∈ fs, wfVal kv.2 = true := by
  induction fs with
  | nil => simp [wfFields]
  | cons kv fs ih =>
    obtain ⟨k, v⟩ := kv
    simp [wfFields, ih]

theorem wfList_iff {xs : List Value} :
    wfList xs = true ↔ ∀ x ∈ xs, wfVal x = true := by
  induction xs with
  | nil => simp [wfList]
  | cons x xs ih => simp [wfList, ih]

theorem wfDoc_iff {d : Doc} :
    wfDoc d = true ↔ nodupKeysB d = true ∧ ∀ kv ∈ d, wfVal kv.2 = true := by
  simp [wfDoc, wfFields_iff]

theorem stripDoc_cons {excl : List String} {k : String} {v : Value} {d : Doc} :
    stripDoc excl ((k, v) :: d) =
      if (!(excl.contains k) && !(k == "_id")) = true then (k, v) :: stripDoc excl d
      else stripDoc excl d := by
  simp only [stripDoc, List.filter_cons]

theorem lookupField_stripDoc_of_mem {excl : List String} {d : Doc} {g : String}
    (hg : g ∈ excl) : lookupField (stripDoc excl d) g = none := by
  induction d with
  | nil => rfl
  | cons kv d ih =>
    obtain ⟨k, v⟩ := kv
    rw [stripDoc_cons]
    by_cases hk : (!(excl.contains k) && !(k == "_id")) = true
    · rw [if_pos hk, lookupField_cons]
      have hkg : k ≠ g := by
        rintro rfl
        simp only [Bool.and_eq_true, Bool.not_eq_true'] at hk
        have : k ∈ excl := hg
        simp [this] at hk
      rw [if_neg hkg]
      exact ih
    · rw [if_neg hk]
      exact ih

theorem hasKey_stripDoc_of_mem {excl : List String} {d : Doc} {g : String}
    (hg : g ∈ excl) : hasKey (stripDoc excl d) g = false := by
  rw [← lookupField_isSome, lookupField_stripDoc_of_mem hg]
  rfl

theorem lookupField_stripDoc_id {excl : List String} {d : Doc} :
    lookupField (stripDoc excl d) "_id" = none := by
  induction d with
  | nil => rfl
  | cons kv d ih =>
    obtain ⟨k, v⟩ := kv
    rw [stripDoc_cons]
    by_cases hk : (!(excl.contains k) && !(k == "_id")) = true
    · rw [if_pos hk, lookupField_cons]
      have hkg : k ≠ "_id" := by
        simp only [Bool.and_eq_true, Bool.not_eq_true'] at hk
        simpa using hk.2
      rw [if_neg hkg]
      exact ih
    · rw [if_neg hk]
      exact ih

theorem wfDoc_stripDoc {excl : List String} {d : Doc} (h : wfDoc d = true) :
    wfDoc (stripDoc excl d) = true := by
  rw [wfDoc_iff] at h ⊢
  refine ⟨?_, fun kv hm => h.2 kv (List.mem_of_mem_filter hm)⟩
  rw [nodupKeysB_iff] at *
  exact ((List.filter_sublist d).map Prod.fst).nodup h.1

theorem dictGet_cons {k2 : String} {w : Doc} {m : Dict} {k : String} :
    dictGet ((k2, w) :: m) k = if k2 = k then some w else dictGet m k := by
  by_cases h : k2 = k
  · simp [dictGet, List.find?_cons_of_pos, h]
  · simp only [dictGet, if_neg h]
    rw [List.find?_cons_of_neg]
    simpa using h

theorem dictKeys_cons {k : String} {w : Doc} {m : Dict} :
    dictKeys ((k, w) :: m) = k :: dictKeys m := rfl

theorem dictGet_isSome_iff {m : Dict} {k : String} :
    (dictGet m k).isSome = true ↔ k ∈ dictKeys m := by
  induction m with
  | nil => simp [dictGet, dictKeys]
  | cons kv m ih =>
    obtain ⟨k2, w⟩ := kv
    rw [dictGet_cons, dictKeys_cons]
    by_cases h : k2 = k
    · simp [h]
    · simp only [if_neg h, List.mem_cons, ih]
      constructor
      · exact Or.inr
      · rintro (he | hm)
        · exact absurd he.symm h
        · exact hm

theorem mem_dictKeys_of_get {m : Dict} {k : String} {v : Doc}
    (h : dictGet m k = some v) : k ∈ dictKeys m :=
  dictGet_isSome_iff.mp (by simp [h])

theorem dictKeys_upsert_mem {m : Dict} {k : String} {v : Doc}
    (h : k ∈ dictKeys m) : dictKeys (dictUpsert m k v) = dictKeys m := by
  induction m with
  | nil => simp [dictKeys] at h
  | cons kv m ih =>
    obtain ⟨k2, w⟩ := kv
    by_cases hk : k2 = k
    · simp [dictUpsert, hk, dictKeys_cons]
    · rw [dictKeys_cons] at h
      have hm : k ∈ dictKeys m := by
        rcases List.mem_cons.mp h with he | hm
        · exact absurd he.symm hk
        · exact hm
      simp [dictUpsert, hk, dictKeys_cons, ih hm]

theorem dictKeys_upsert_not_mem {m : Dict} {k : String} {v : Doc}
    (h : k ∉ dictKeys m) : dictKeys (dictUpsert m k v) = dictKeys m ++ [k] := by
  induction m with
  | nil => simp [dictUpsert, dictKeys]
  | cons kv m ih =>
    obtain ⟨k2, w⟩ := kv
    rw [dictKeys_cons] at h
    have hk : k2 ≠ k := fun he => h (by simp [he])
    have hm : k ∉ dictKeys m := fun hm => h (by simp [hm])
    simp [dictUpsert, hk, dictKeys_cons, ih hm]

theorem dictGet_upsert {m : Dict} {k : String} {v : Doc} {q : String} :
    dictGet (dictUpsert m k v) q = if q = k then some v else dictGet m q := by
  induction m with
  | nil =>
    by_cases h : k = q
    · simp [dictUpsert, dictGet_cons, h]
    · have h2 : ¬q = k := fun he => h he.symm
      simp [dictUpsert, dictGet_cons, h, h2, dictGet]
  | cons kv m ih =>
    obtain ⟨a, w⟩ := kv
    by_cases ha : a = k
    · subst ha
      by_cases hq : a = q
      · simp [dictUpsert, dictGet_cons, hq]
      · have hq2 : ¬q = a := fun he => hq he.symm
        simp [dictUpsert, dictGet_cons, hq, hq2]
    · have ha2 : (a == k) = false := by simpa using ha
      by_cases hq : a = q
      · subst hq
        simp [dictUpsert, ha2, dictGet_cons, ha]
      · simp [dictUpsert, ha2, dictGet_cons, hq, ih]

theorem nodup_dictKeys_upsert {m : Dict} {k : String} {v : Doc}
    (h : (dictKeys m).Nodup) : (dictKeys (dictUpsert m k v)).Nodup := by
  by_cases hk : k ∈ dictKeys m
  · rw [dictKeys_upsert_mem hk]
    exact h
  · rw [dictKeys_upsert_not_mem hk]
    simp [List.nodup_append, h, List.Disjoint]
    intro a ha he
    exact hk (he ▸ ha)

theorem dictKeys_upsert_toFinset {m : Dict} {k : String} {v : Doc} :
    (dictKeys (dictUpsert m k v)).toFinset = insert k (dictKeys m).toFinset := by
  by_cases hk : k ∈ dictKeys m
  · rw [dictKeys_upsert_mem hk]
    exact (Finset.insert_eq_self.mpr (by simpa using hk)).symm
  · rw [dictKeys_upsert_not_mem hk]
    ext a
    simp [or_comm]

/-- The last document of `docs` whose stringified identity is `i` — the one
whose stripped form the dict comprehension of lines 77-78 retains. -/
def findLastDoc (i : String) (docs : List Doc) : Option Doc :=
  (docs.filter (fun d => idStr d == some i)).getLast?

theorem getLast?_mem_aux {α : Type} : ∀ {l : List α} {a : α}, l.getLast? = some a → a ∈ l := by
  intro l
  induction l with
  | nil => intro a h; cases h
  | cons x xs ih =>
    intro a h
    cases xs with
    | nil => simp_all
    | cons y ys =>
      rw [List.getLast?_cons_cons] at h
      exact List.mem_cons.mpr (Or.inr (ih h))

theorem findLastDoc_cons {i : String} {d : Doc} {docs : List Doc} :
    findLastDoc i (d :: docs) =
      if idStr d = some i then some ((findLastDoc i docs).getD d)
      else findLastDoc i docs := by
  unfold findLastDoc
  by_cases h : idStr d = some i
  · rw [if_pos h, List.filter_cons_of_pos (by simpa using h)]
    cases hl : docs.filter (fun d => idStr d == some i) with
    | nil => simp
    | cons x xs =>
      rw [List.getLast?_cons_cons]
      cases hx : (x :: xs).getLast? with
      | none => simp at hx
      | some y => simp
  · rw [if_neg h, List.filter_cons_of_neg (by simpa using h)]

theorem findLastDoc_spec {i : String} {docs : List Doc} {d : Doc}
    (h : findLastDoc i docs = some d) : d ∈ docs ∧ idStr d = some i := by
  unfold findLastDoc at h
  have hm := getLast?_mem_aux h
  exact ⟨List.mem_of_mem_filter hm, by simpa using List.of_mem_filter hm⟩

theorem buildDictFrom_isSome {excl : List String} :
    ∀ {docs : List Doc} {m : Dict},
      (buildDictFrom excl m docs).isSome = true ↔
        ∀ d ∈ docs, (lookupField d "_id").isSome = true := by
  intro docs
  induction docs with
  | nil => intro m; simp [buildDictFrom]
  | cons d rest ih =>
    intro m
    cases h : lookupField d "_id" with
    | none => simp [buildDictFrom, h]
    | some idv => simp [buildDictFrom, h, ih]

theorem buildDictFrom_nodup {excl : List String} :
    ∀ {docs : List Doc} {m m2 : Dict}, buildDictFrom excl m docs = some m2 →
      (dictKeys m).Nodup → (dictKeys m2).Nodup := by
  intro docs
  induction docs with
  | nil =>
    intro m m2 h hm
    cases h
    exact hm
  | cons d rest ih =>
    intro m m2 h hm
    cases hid : lookupField d "_id" with
    | none => rw [buildDictFrom, hid] at h; cases h
    | some idv =>
      rw [buildDictFrom, hid] at h
      exact ih h (nodup_dictKeys_upsert hm)

theorem buildDictFrom_keys_toFinset {excl : List String} :
    ∀ {docs : List Doc} {m m2 : Dict}, buildDictFrom excl m docs = some m2 →
      (dictKeys m2).toFinset = (dictKeys m).toFinset ∪ (docs.filterMap idStr).toFinset := by
  intro docs
  induction docs with
  | nil =>
    intro m m2 h
    cases h
    simp
  | cons d rest ih =>
    intro m m2 h
    cases hid : lookupField d "_id" with
    | none => rw [buildDictFrom, hid] at h; cases h
    | some idv =>
      rw [buildDictFrom, hid] at h
      have hstep := ih h
      have hids : idStr d = some (pyStr idv) := by simp [idStr, hid]
      rw [hstep, dictKeys_upsert_toFinset]
      rw [List.filterMap_cons, hids]
      ext a
      simp only [Finset.mem_union, Finset.mem_insert, List.mem_toFinset, List.mem_cons]
      tauto

theorem buildDictFrom_get {excl : List String} :
    ∀ {docs : List Doc} {m m2 : Dict}, buildDictFrom excl m docs = some m2 →
      ∀ k, dictGet m2 k =
        match findLastDoc k docs with
        | some d => some (stripDoc excl d)
        | none => dictGet m k := by
  intro docs
  induction docs with
  | nil =>
    intro m m2 h k
    cases h
    simp [findLastDoc]
  | cons d rest ih =>
    intro m m2 h k
    cases hid : lookupField d "_id" with
    | none => rw [buildDictFrom, hid] at h; cases h
    | some idv =>
      rw [buildDictFrom, hid] at h
      have hids : idStr d = some (pyStr idv) := by simp [idStr, hid]
      have hstep := ih h k
      rw [findLastDoc_cons]
      by_cases hk : idStr d = some k
      · rw [if_pos hk]
        have hkey : pyStr idv = k := by
          rw [hids] at hk
          simpa using hk
        cases hrest : findLastDoc k rest with
        | some d2 => simp only [hrest] at hstep; simp [hstep]
        | none =>
          simp only [hrest] at hstep
          simp only [hrest, Option.getD_none]
          rw [hstep, dictGet_upsert, if_pos hkey.symm]
      · rw [if_neg hk]
        have hkey : ¬(k = pyStr idv) := by
          intro he
          exact hk (by rw [hids, he])
        cases hrest : findLastDoc k rest with
        | some d2 => simp only [hrest] at hstep; simp [hstep, hrest]
        | none =>
          simp only [hrest] at hstep
          simp only [hrest]
          rw [hstep, dictGet_upsert, if_neg hkey]

theorem buildDictFrom_keys_app {excl : List String} :
    ∀ {docs : List Doc} {m m2 : Dict}, buildDictFrom excl m docs = some m2 →
      (dictKeys m ++ docs.filterMap idStr).Nodup →
      dictKeys m2 = dictKeys m ++ docs.filterMap idStr := by
  intro docs
  induction docs with
  | nil =>
    intro m m2 h _
    cases h
    simp
  | cons d rest ih =>
    intro m m2 h hnd
    cases hid : lookupField d "_id" with
    | none => rw [buildDictFrom, hid] at h; cases h
    | some idv =>
      rw [buildDictFrom, hid] at h
      have hids : idStr d = some (pyStr idv) := by simp [idStr, hid]
      rw [List.filterMap_cons, hids] at hnd ⊢
      have hfresh : pyStr idv ∉ dictKeys m := by
        rw [List.nodup_append] at hnd
        intro hm
        exact hnd.2.2 hm (by simp)
      have hkeys := @dictKeys_upsert_not_mem m (pyStr idv) (stripDoc excl d) hfresh
      have hnd2 : ((dictKeys m ++ [pyStr idv]) ++ rest.filterMap idStr).Nodup := by
        rw [List.append_assoc, List.singleton_append]
        exact hnd
      have := ih h (hkeys ▸ hnd2)
      rw [this, hkeys, List.append_assoc, List.singleton_append]

/-! ### DeepDiff theory -/

theorem withSeg_eq_nil {s : PathSeg} {items : List DiffItem} :
    withSeg s items = [] ↔ items = [] := by
  simp [withSeg]

theorem deepDiff_obj {fs gs : List (String × Value)} :
    deepDiff (.vobj fs) (.vobj gs) =
      ((fs.filter (fun kv => !(hasKey gs kv.1))).map
        (fun kv => ([PathSeg.fieldSeg kv.1], Change.dictItemRemoved kv.2)))
      ++ ((gs.filter (fun kv => !(hasKey fs kv.1))).map
        (fun kv => ([PathSeg.fieldSeg kv.1], Change.dictItemAdded kv.2)))
      ++ diffCommon fs gs := by
  simp [deepDiff]

theorem deepDiff_arr {xs ys : List Value} :
    deepDiff (.varr xs) (.varr ys) = diffArr 0 xs ys := by
  simp [deepDiff]

theorem diffCommon_cons {k : String} {v : Value} {fs gs : List (String × Value)} :
    diffCommon ((k, v) :: fs) gs =
      (match lookupField gs k with
       | some w => withSeg (PathSeg.fieldSeg k) (deepDiff v w)
       | none => []) ++ diffCommon fs gs := by
  simp [diffCommon]

theorem diffArr_cons {i : Nat} {x y : Value} {xs ys : List Value} :
    diffArr i (x :: xs) (y :: ys) =
      withSeg (PathSeg.idxSeg i) (deepDiff x y) ++ diffArr (i + 1) xs ys := by
  simp [diffArr]

theorem deepEq_obj {fs gs : List (String × Value)} :
    deepEq (.vobj fs) (.vobj gs) =
      (deepEqFields fs gs && gs.all (fun kv => hasKey fs kv.1)) := by
  simp [deepEq]

theorem deepEq_arr {xs ys : List Value} :
    deepEq (.varr xs) (.varr ys) = deepEqList xs ys := by
  simp [deepEq]

theorem deepEqFields_cons {k : String} {v : Value} {fs gs : List (String × Value)} :
    deepEqFields ((k, v) :: fs) gs =
      ((match lookupField gs k with
        | some w => deepEq v w
        | none => false) && deepEqFields fs gs) := by
  simp [deepEqFields]

theorem diffArr_nil_iff_of {xs : List Value}
    (IH : ∀ x ∈ xs, ∀ y, (deepDiff x y = [] ↔ deepEq x y = true)) :
    ∀ (i : Nat) (ys : List Value), diffArr i xs ys = [] ↔ deepEqList xs ys = true := by
  induction xs with
  | nil =>
    intro i ys
    cases ys <;> simp [diffArr, deepEqList, List.enumFrom]
  | cons x xs ih =>
    intro i ys
    cases ys with
    | nil => simp [diffArr, deepEqList, List.enumFrom]
    | cons y ys =>
      have h1 := IH x (by simp) y
      have h2 := ih (fun x hx => IH x (by simp [hx])) (i + 1) ys
      simp [diffArr_cons, deepEqList, withSeg, h1, h2]

theorem deepEqFields_iff_of {fs : List (String × Value)}
    (IH : ∀ kv ∈ fs, ∀ w, (deepDiff kv.2 w = [] ↔ deepEq kv.2 w = true)) :
    ∀ gs, deepEqFields fs gs = true ↔
      (diffCommon fs gs = [] ∧ ∀ kv ∈ fs, hasKey gs kv.1 = true) := by
  induction fs with
  | nil => intro gs; simp [deepEqFields, diffCommon]
  | cons kv fs ih =>
    obtain ⟨k, v⟩ := kv
    intro gs
    rw [deepEqFields_cons, diffCommon_cons]
    cases hl : lookupField gs k with
    | none =>
      have hk : hasKey gs k = false := by
        rw [← lookupField_isSome, hl]
        rfl
      simp [hk]
    | some w =>
      have hk : hasKey gs k = true := by
        rw [← lookupField_isSome, hl]
        rfl
      have h1 := IH (k, v) (by simp) w
      have h2 := ih (fun kv hkv => IH kv (by simp [hkv])) gs
      simp only [Bool.and_eq_true, h2, List.append_eq_nil, withSeg_eq_nil, ← h1]
      constructor
      · rintro ⟨hd, hc, hall⟩
        exact ⟨⟨hd, hc⟩, by
          intro kv hm
          rcases List.mem_cons.mp hm with he | hm2
          · subst he; exact hk
          · exact hall kv hm2⟩
      · rintro ⟨⟨hd, hc⟩, hall⟩
        exact ⟨hd, hc, fun kv hm => hall kv (by simp [hm])⟩

/-- The central DeepDiff adequacy result: the diff of two values is empty
exactly when they are deeply equal. -/
theorem deepDiff_nil_iff : ∀ a b : Value, deepDiff a b = [] ↔ deepEq a b = true := by
  apply valueInduction (P := fun a => ∀ b, deepDiff a b = [] ↔ deepEq a b = true)
  case hnull => intro b; cases b <;> simp [deepDiff, deepEq]
  case hbool =>
    intro x b
    cases b <;> simp [deepDiff, deepEq]
  case hint =>
    intro x b
    cases b <;> simp [deepDiff, deepEq]
  case hstr =>
    intro x b
    cases b <;> simp [deepDiff, deepEq]
  case hoid =>
    intro x b
    cases b <;> simp [deepDiff, deepEq]
  case harr =>
    intro xs IH b
    cases b <;> simp [deepDiff, deepEq]
    exact diffArr_nil_iff_of IH 0 _
  case hobj =>
    intro fs IH b
    cases b with
    | vobj gs =>
      rw [deepDiff_obj, deepEq_obj]
      have hfld := deepEqFields_iff_of IH gs
      simp only [List.append_eq_nil, List.map_eq_nil_iff, List.filter_eq_nil_iff,
        Bool.not_eq_true', Bool.not_eq_false, Bool.and_eq_true, List.all_eq_true, hfld]
      constructor
      · rintro ⟨⟨hrem, hadd⟩, hcom⟩
        exact ⟨⟨hcom, fun kv hm => hrem kv hm⟩, fun kv hm => hadd kv hm⟩
      · rintro ⟨⟨hcom, hrem⟩, hadd⟩
        exact ⟨⟨fun kv hm => hrem kv hm, fun kv hm => hadd kv hm⟩, hcom⟩
    | vnull => simp [deepDiff, deepEq]
    | vbool x => simp [deepDiff, deepEq]
    | vint x => simp [deepDiff, deepEq]
    | vstr x => simp [deepDiff, deepEq]
    | void x => simp [deepDiff, deepEq]
    | varr xs => simp [deepDiff, deepEq]

theorem deepEqList_refl_of {xs : List Value} (h : ∀ x ∈ xs, deepEq x x = true) :
    deepEqList xs xs = true := by
  induction xs with
  | nil => simp [deepEqList]
  | cons x xs ih =>
    simp only [deepEqList, Bool.and_eq_true]
    exact ⟨h x (by simp), ih (fun x hx => h x (by simp [hx]))⟩

theorem deepEqFields_of_lookup {fs gs : List (String × Value)}
    (h : ∀ kv ∈ fs, ∃ w, lookupField gs kv.1 = some w ∧ deepEq kv.2 w = true) :
    deepEqFields fs gs = true := by
  induction fs with
  | nil => simp [deepEqFields]
  | cons kv fs ih =>
    obtain ⟨k, v⟩ := kv
    obtain ⟨w, hl, he⟩ := h (k, v) (by simp)
    rw [deepEqFields_cons, hl]
    simp only [Bool.and_eq_true]
    exact ⟨he, ih (fun kv hm => h kv (by simp [hm]))⟩

/-- Deep equality is reflexive on wellformed (duplicate-key-free) values. -/
theorem deepEq_refl : ∀ a : Value, wfVal a = true → deepEq a a = true := by
  apply valueInduction (P := fun a => wfVal a = true → deepEq a a = true)
  case hnull => intro _; simp [deepEq]
  case hbool => intro x _; simp [deepEq]
  case hint => intro x _; simp [deepEq]
  case hstr => intro x _; simp [deepEq]
  case hoid => intro x _; simp [deepEq]
  case harr =>
    intro xs IH hwf
    rw [deepEq_arr]
    rw [show wfVal (.varr xs) = wfList xs from by simp [wfVal], wfList_iff] at hwf
    exact deepEqList_refl_of (fun x hx => IH x hx (hwf x hx))
  case hobj =>
    intro fs IH hwf
    rw [show wfVal (.vobj fs) = (nodupKeysB fs && wfFields fs) from by simp [wfVal]] at hwf
    simp only [Bool.and_eq_true, wfFields_iff] at hwf
    rw [deepEq_obj]
    simp only [Bool.and_eq_true, List.all_eq_true]
    refine ⟨?_, fun kv hm => hasKey_of_mem hm⟩
    exact deepEqFields_of_lookup (fun kv hm =>
      ⟨kv.2, lookup_eq_of_nodupKeys hwf.1 (by simpa using hm), IH kv hm (hwf.2 kv hm)⟩)

/-- DeepDiff of a wellformed value against itself is empty. -/
theorem deepDiff_self {a : Value} (h : wfVal a = true) : deepDiff a a = [] :=
  (deepDiff_nil_iff a a).mpr (deepEq_refl a h)

theorem diffCommon_eq_nil_of_lookup {fs gs : List (String × Value)}
    (h : ∀ kv ∈ fs, lookupField gs kv.1 = some kv.2)
    (hwf : wfFields fs = true) : diffCommon fs gs = [] := by
  induction fs with
  | nil => simp [diffCommon]
  | cons kv fs ih =>
    obtain ⟨k, v⟩ := kv
    rw [wfFields_iff] at hwf
    have hl : lookupField gs k = some v := h (k, v) (by simp)
    have hv : wfVal v = true := hwf (k, v) (by simp)
    rw [diffCommon_cons]
    simp only [hl, deepDiff_self hv, withSeg, List.map_nil, List.nil_append]
    exact ih (fun kv hm => h kv (by simp [hm])) (wfFields_iff.mpr (fun kv hm => hwf kv (by simp [hm])))

theorem diffCommon_head {fs gs : List (String × Value)} {it : DiffItem}
    (h : it ∈ diffCommon fs gs) :
    ∃ k, it.1.head? = some (PathSeg.fieldSeg k) ∧ hasKey fs k = true := by
  induction fs with
  | nil => simp [diffCommon] at h
  | cons kv fs ih =>
    obtain ⟨k, v⟩ := kv
    rw [diffCommon_cons] at h
    rcases List.mem_append.mp h with hl | hr
    · cases hlk : lookupField gs k with
      | none => rw [hlk] at hl; simp at hl
      | some w =>
        rw [hlk] at hl
        simp only [withSeg, List.mem_map] at hl
        obtain ⟨it2, _, he⟩ := hl
        refine ⟨k, ?_, by simp [hasKey_cons]⟩
        rw [← he]
        rfl
    · obtain ⟨k2, hh, hk⟩ := ih hr
      exact ⟨k2, hh, by simp [hasKey_cons, hk]⟩

theorem deepDiff_obj_head {fs gs : List (String × Value)} {it : DiffItem}
    (h : it ∈ deepDiff (.vobj fs) (.vobj gs)) :
    ∃ k, it.1.head? = some (PathSeg.fieldSeg k) ∧
      (hasKey fs k = true ∨ hasKey gs k = true) := by
  rw [deepDiff_obj] at h
  rcases List.mem_append.mp h with h1 | hc
  · rcases List.mem_append.mp h1 with hrem | hadd
    · simp only [List.mem_map] at hrem
      obtain ⟨kv, hm, he⟩ := hrem
      refine ⟨kv.1, by rw [← he]; rfl, Or.inl (hasKey_of_mem (List.mem_of_mem_filter hm))⟩
    · simp only [List.mem_map] at hadd
      obtain ⟨kv, hm, he⟩ := hadd
      refine ⟨kv.1, by rw [← he]; rfl, Or.inr (hasKey_of_mem (List.mem_of_mem_filter hm))⟩
  · obtain ⟨k, hh, hk⟩ := diffCommon_head hc
    exact ⟨k, hh, Or.inl hk⟩

theorem nodupKeysB_cons_iff {k : String} {w : Value} {fs : Doc} :
    nodupKeysB ((k, w) :: fs) = true ↔
      (∀ kv ∈ fs, kv.1 ≠ k) ∧ nodupKeysB fs = true := by
  simp only [nodupKeysB, Bool.and_eq_true, Bool.not_eq_true', List.any_eq_false, beq_iff_eq]

theorem set_keys_map : ∀ (d : Doc) (j : Nat) (k : String) (vold vnew : Value),
    d.get? j = some (k, vold) →
    (d.set j (k, vnew)).map Prod.fst = d.map Prod.fst := by
  intro d
  induction d with
  | nil => intro j k vold vnew h; cases h
  | cons x rest ih =>
    intro j k vold vnew h
    cases j with
    | zero =>
      rw [List.get?_cons_zero] at h
      cases h
      simp
    | succ j =>
      rw [List.get?_cons_succ] at h
      simp [ih j k vold vnew h]

theorem hasKey_eq_of_keys {d d2 : Doc} (h : d.map Prod.fst = d2.map Prod.fst)
    (q : String) : hasKey d q = hasKey d2 q := by
  have h1 : ∀ e : Doc, hasKey e q = (e.map Prod.fst).any (fun a => a == q) := by
    intro e
    induction e with
    | nil => rfl
    | cons kv rest ih =>
      simp only [hasKey, List.any_cons, List.map_cons] at *
      rw [ih]
  rw [h1, h1, h]

theorem diffCommon_congr_right {fs gs gs2 : List (String × Value)}
    (h : ∀ kv ∈ fs, lookupField gs kv.1 = lookupField gs2 kv.1) :
    diffCommon fs gs = diffCommon fs gs2 := by
  induction fs with
  | nil => simp [diffCommon]
  | cons kv fs ih =>
    obtain ⟨k, v⟩ := kv
    have hl : lookupField gs k = lookupField gs2 k := h (k, v) (by simp)
    rw [diffCommon_cons, diffCommon_cons, hl, ih (fun kv hm => h kv (by simp [hm]))]

theorem wfFields_cons_iff {k : String} {v : Value} {fs : Doc} :
    wfFields ((k, v) :: fs) = true ↔ wfVal v = true ∧ wfFields fs = true := by
  simp [wfFields]

theorem diffCommon_set : ∀ (d : Doc) (j : Nat) (k : String) (vold vnew : Value),
    d.get? j = some (k, vold) → nodupKeysB d = true → wfFields d = true →
    diffCommon d (d.set j (k, vnew)) = withSeg (PathSeg.fieldSeg k) (deepDiff vold vnew) := by
  intro d
  induction d with
  | nil =>
    intro j k vold vnew hget _ _
    cases hget
  | cons x rest ih =>
    intro j k vold vnew hget hnd hwf
    obtain ⟨k0, v0⟩ := x
    have hnd2 := nodupKeysB_cons_iff.mp hnd
    have hwf2 := wfFields_cons_iff.mp hwf
    cases j with
    | zero =>
      simp only [List.get?_cons_zero, Option.some.injEq, Prod.mk.injEq] at hget
      obtain ⟨rfl, rfl⟩ := hget
      rw [List.set_cons_zero, diffCommon_cons]
      have hl : lookupField ((k0, vnew) :: rest) k0 = some vnew := by
        rw [lookupField_cons, if_pos rfl]
      simp only [hl]
      have htail : diffCommon rest ((k0, vnew) :: rest) = [] := by
        apply diffCommon_eq_nil_of_lookup _ hwf2.2
        intro kv hm
        rw [lookupField_cons, if_neg (fun he => hnd2.1 kv hm (he.symm))]
        exact lookup_eq_of_nodupKeys hnd2.2 (by simpa using hm)
      rw [htail, List.append_nil]
    | succ j =>
      rw [List.get?_cons_succ] at hget
      rw [List.set_cons_succ, diffCommon_cons]
      have hl : lookupField ((k0, v0) :: rest.set j (k, vnew)) k0 = some v0 := by
        rw [lookupField_cons, if_pos rfl]
      simp only [hl, deepDiff_self hwf2.1, withSeg, List.map_nil, List.nil_append]
      have hcongr : diffCommon rest ((k0, v0) :: rest.set j (k, vnew)) =
          diffCommon rest (rest.set j (k, vnew)) := by
        apply diffCommon_congr_right
        intro kv hm
        rw [lookupField_cons, if_neg (fun he => hnd2.1 kv hm (he.symm))]
      rw [hcongr]
      exact ih j k vold vnew hget hnd2.2 hwf2.2

theorem deepDiff_obj_same_keys {fs gs : List (String × Value)}
    (h : fs.map Prod.fst = gs.map Prod.fst) :
    deepDiff (.vobj fs) (.vobj gs) = diffCommon fs gs := by
  rw [deepDiff_obj]
  have h1 : fs.filter (fun kv => !(hasKey gs kv.1)) = [] := by
    rw [List.filter_eq_nil_iff]
    intro kv hm
    have hk : hasKey gs kv.1 = true := by
      rw [← hasKey_eq_of_keys h]
      exact hasKey_of_mem hm
    simp [hk]
  have h2 : gs.filter (fun kv => !(hasKey fs kv.1)) = [] := by
    rw [List.filter_eq_nil_iff]
    intro kv hm
    have hk : hasKey fs kv.1 = true := by
      rw [hasKey_eq_of_keys h]
      exact hasKey_of_mem hm
    simp [hk]
  rw [h1, h2]
  simp

/-! ### Unfolding lemmas for the reconciliation pipeline -/

theorem compare_collections_eq {S T : List Doc} {n : String} {excl : List String}
    {sd td : Dict} (hs : buildDict excl S = some sd) (ht : buildDict excl T = some td) :
    compare_collections S T n excl = some (compareDicts sd td) := by
  simp [compare_collections, hs, ht]

theorem compare_collections_some_elim {S T : List Doc} {n : String}
    {excl : List String} {r : CompareResult}
    (h : compare_collections S T n excl = some r) :
    ∃ sd td, buildDict excl S = some sd ∧ buildDict excl T = some td ∧
      r = compareDicts sd td := by
  unfold compare_collections at h
  cases hs : buildDict excl S with
  | none => rw [hs] at h; cases h
  | some sd =>
    cases ht : buildDict excl T with
    | none => rw [hs, ht] at h; cases h
    | some td =>
      rw [hs, ht] at h
      exact ⟨sd, td, rfl, rfl, (Option.some.injEq _ _ ▸ h).symm⟩

theorem compareDicts_missing_in_source {sd td : Dict} :
    (compareDicts sd td).missing_in_source =
      ((dictKeys td).filter (fun i => !((dictKeys sd).contains i))).map
        (fun i => ("_id", Value.vstr i) :: ((dictGet td i).getD [])) := rfl

theorem compareDicts_missing_in_target {sd td : Dict} :
    (compareDicts sd td).missing_in_target =
      ((dictKeys sd).filter (fun i => !((dictKeys td).contains i))).map
        (fun i => ("_id", Value.vstr i) :: ((dictGet sd i).getD [])) := rfl

theorem compareDicts_common_count {sd td : Dict} :
    (compareDicts sd td).common_count =
      ((dictKeys sd).filter (fun i => (dictKeys td).contains i)).length := rfl

theorem compareDicts_content_differences {sd td : Dict} :
    (compareDicts sd td).content_differences =
      ((dictKeys sd).filter (fun i => (dictKeys td).contains i)).filterMap
        (diffEntryFor sd td) := rfl

theorem diffEntryFor_elim {sd td : Dict} {i : String} {e : DiffEntry}
    (h : diffEntryFor sd td i = some e) :
    e.id = i ∧ dictGet sd i = some e.source_doc ∧ dictGet td i = some e.target_doc ∧
      e.diff = deepDiff (.vobj e.source_doc) (.vobj e.target_doc) ∧ e.diff ≠ [] := by
  unfold diffEntryFor at h
  cases hs : dictGet sd i with
  | none => rw [hs] at h; cases h
  | some s =>
    cases ht : dictGet td i with
    | none => rw [hs, ht] at h; cases h
    | some t =>
      rw [hs, ht] at h
      by_cases hd : (deepDiff (.vobj s) (.vobj t)).isEmpty = true
      · simp [hd] at h
      · simp only [hd, Bool.false_eq_true, if_false, Option.some.injEq] at h
        subst h
        refine ⟨rfl, rfl, rfl, rfl, ?_⟩
        simpa [List.isEmpty_iff] using hd

theorem diffEntryFor_eq_some {sd td : Dict} {i : String} {s t : Doc}
    (hs : dictGet sd i = some s) (ht : dictGet td i = some t)
    (hne : deepDiff (.vobj s) (.vobj t) ≠ []) :
    diffEntryFor sd td i = some ⟨i, s, t, deepDiff (.vobj s) (.vobj t)⟩ := by
  unfold diffEntryFor
  rw [hs, ht]
  simp only [List.isEmpty_iff, if_neg hne]

theorem diffEntryFor_eq_none {sd td : Dict} {i : String} {s t : Doc}
    (hs : dictGet sd i = some s) (ht : dictGet td i = some t)
    (hnil : deepDiff (.vobj s) (.vobj t) = []) :
    diffEntryFor sd td i = none := by
  unfold diffEntryFor
  rw [hs, ht]
  simp [hnil]

/-! ### JSON serialization of results (the `JSONEncoder` of lines 14-21) -/

mutual
/-- The custom `JSONEncoder` applied by `json.dumps`/`json.dump` in
`compare_collections` (line 119) and `main` (lines 149-155): every ObjectId
is rendered as its string form; everything else serializes as itself. -/
def renderValue : Value → Value
  | .void s => .vstr s
  | .varr xs => .varr (renderList xs)
  | .vobj fs => .vobj (renderFields fs)
  | v => v
termination_by a => sizeOf a
def renderList : List Value → List Value
  | [] => []
  | x :: xs => renderValue x :: renderList xs
termination_by xs => sizeOf xs
def renderFields : List (String × Value) → List (String × Value)
  | [] => []
  | (k, v) :: fs => (k, renderValue v) :: renderFields fs
termination_by fs => sizeOf fs
end

def renderChange : Change → Change
  | .valuesChanged a b => .valuesChanged (renderValue a) (renderValue b)
  | .typeChanges a b => .typeChanges (renderValue a) (renderValue b)
  | .dictItemAdded v => .dictItemAdded (renderValue v)
  | .dictItemRemoved v => .dictItemRemoved (renderValue v)
  | .iterItemAdded v => .iterItemAdded (renderValue v)
  | .iterItemRemoved v => .iterItemRemoved (renderValue v)

def renderDiff (items : List DiffItem) : List DiffItem :=
  items.map (fun it => (it.1, renderChange it.2))

def renderEntry (e : DiffEntry) : DiffEntry :=
  ⟨e.id, renderFields e.source_doc, renderFields e.target_doc, renderDiff e.diff⟩

/-- The reconciliation report as it is serialized to the output file. -/
def renderResult (r : CompareResult) : CompareResult :=
  ⟨r.missing_in_source.map renderFields, r.missing_in_target.map renderFields,
   r.common_count, r.content_differences.map renderEntry⟩

mutual
/-- No internal ObjectId representation occurs anywhere in the value. -/
def oidFree : Value → Bool
  | .void _ => false
  | .varr xs => oidFreeList xs
  | .vobj fs => oidFreeFields fs
  | _ => true
termination_by a => sizeOf a
def oidFreeList : List Value → Bool
  | [] => true
  | x :: xs => oidFree x && oidFreeList xs
termination_by xs => sizeOf xs
def oidFreeFields : List (String × Value) → Bool
  | [] => true
  | (_, v) :: fs => oidFree v && oidFreeFields fs
termination_by fs => sizeOf fs
end

def oidFreeChange : Change → Bool
  | .valuesChanged a b => oidFree a && oidFree b
  | .typeChanges a b => oidFree a && oidFree b
  | .dictItemAdded v => oidFree v
  | .dictItemRemoved v => oidFree v
  | .iterItemAdded v => oidFree v
  | .iterItemRemoved v => oidFree v

def oidFreeDiff (items : List DiffItem) : Bool :=
  items.all (fun it => oidFreeChange it.2)

theorem renderList_eq_map {xs : List Value} : renderList xs = xs.map renderValue := by
  induction xs with
  | nil => simp [renderList]
  | cons x xs ih => simp [renderList, ih]

theorem renderFields_eq_map {fs : List (String × Value)} :
    renderFields fs = fs.map (fun kv => (kv.1, renderValue kv.2)) := by
  induction fs with
  | nil => simp [renderFields]
  | cons kv fs ih =>
    obtain ⟨k, v⟩ := kv
    simp [renderFields, ih]

theorem oidFreeList_iff {xs : List Value} :
    oidFreeList xs = true ↔ ∀ x ∈ xs, oidFree x = true := by
  induction xs with
  | nil => simp [oidFreeList]
  | cons x xs ih => simp [oidFreeList, ih]

theorem oidFreeFields_iff {fs : List (String × Value)} :
    oidFreeFields fs = true ↔ ∀ kv ∈ fs, oidFree kv.2 = true := by
  induction fs with
  | nil => simp [oidFreeFields]
  | cons kv fs ih =>
    obtain ⟨k, v⟩ := kv
    simp [oidFreeFields, ih]

/-- The serialized form of any value is free of internal ObjectId
representations. -/
theorem oidFree_render : ∀ v : Value, oidFree (renderValue v) = true := by
  apply valueInduction (P := fun v => oidFree (renderValue v) = true)
  case hnull => simp [renderValue, oidFree]
  case hbool => intro b; simp [renderValue, oidFree]
  case hint => intro n; simp [renderValue, oidFree]
  case hstr => intro s; simp [renderValue, oidFree]
  case hoid => intro s; simp [renderValue, oidFree]
  case harr =>
    intro xs IH
    rw [show renderValue (.varr xs) = .varr (renderList xs) from by simp [renderValue]]
    rw [show oidFree (.varr (renderList xs)) = oidFreeList (renderList xs) from by simp [oidFree]]
    rw [oidFreeList_iff, renderList_eq_map]
    intro x hx
    obtain ⟨y, hy, rfl⟩ := List.mem_map.mp hx
    exact IH y hy
  case hobj =>
    intro fs IH
    rw [show renderValue (.vobj fs) = .vobj (renderFields fs) from by simp [renderValue]]
    rw [show oidFree (.vobj (renderFields fs)) = oidFreeFields (renderFields fs) from by simp [oidFree]]
    rw [oidFreeFields_iff, renderFields_eq_map]
    intro kv hkv
    obtain ⟨kw, hkw, rfl⟩ := List.mem_map.mp hkv
    exact IH kw hkw

theorem oidFree_renderChange (c : Change) : oidFreeChange (renderChange c) = true := by
  cases c <;> simp [renderChange, oidFreeChange, oidFree_render]

theorem oidFree_renderDiff (items : List DiffItem) : oidFreeDiff (renderDiff items) = true := by
  simp only [oidFreeDiff, renderDiff, List.all_eq_true]
  intro it hit
  obtain ⟨it2, _, rfl⟩ := List.mem_map.mp hit
  exact oidFree_renderChange it2.2

theorem lookupField_renderFields {d : Doc} {k : String} :
    lookupField (renderFields d) k = (lookupField d k).map renderValue := by
  induction d with
  | nil => simp [renderFields, lookupField]
  | cons kv d ih =>
    obtain ⟨k2, v⟩ := kv
    rw [show renderFields ((k2, v) :: d) = (k2, renderValue v) :: renderFields d from by
      simp [renderFields]]
    by_cases h : k2 = k <;> simp [lookupField_cons, h, ih]

/-! ### Agreement up to one field (for exclusion transparency) -/

/-- The two documents have the same keys in the same order, and equal values
everywhere except possibly at field `f`. -/
def agreeDoc (f : String) : Doc → Doc → Bool
  | [], [] => true
  | (k, v) :: d, (k2, v2) :: d2 => k == k2 && (k == f || valEq v v2) && agreeDoc f d d2
  | _, _ => false

/-- The two document lists agree pointwise except at field `f`. -/
def agreeDocs (f : String) : List Doc → List Doc → Bool
  | [], [] => true
  | d :: S, d2 :: S2 => agreeDoc f d d2 && agreeDocs f S S2
  | _, _ => false

theorem stripDoc_agree {f : String} {excl : List String} (hf : f ∈ excl) :
    ∀ {d d2 : Doc}, agreeDoc f d d2 = true → stripDoc excl d = stripDoc excl d2 := by
  intro d
  induction d with
  | nil =>
    intro d2 h
    cases d2 with
    | nil => rfl
    | cons x d2 => simp [agreeDoc] at h
  | cons kv d ih =>
    intro d2 h
    obtain ⟨k, v⟩ := kv
    cases d2 with
    | nil => simp [agreeDoc] at h
    | cons kv2 d2 =>
      obtain ⟨k2, v2⟩ := kv2
      simp only [agreeDoc, Bool.and_eq_true, Bool.or_eq_true, beq_iff_eq] at h
      obtain ⟨⟨rfl, hv⟩, hrest⟩ := h
      rw [stripDoc_cons, stripDoc_cons]
      by_cases hk : (!(excl.contains k) && !(k == "_id")) = true
      · rw [if_pos hk, if_pos hk]
        have hkf : k ≠ f := by
          rintro rfl
          simp only [Bool.and_eq_true, Bool.not_eq_true'] at hk
          have : k ∈ excl := hf
          simp [this] at hk
        have hveq : v = v2 := by
          rcases hv with he | hv
          · exact absurd he hkf
          · exact (valEq_iff v v2).mp hv
        rw [hveq, ih hrest]
      · rw [if_neg hk, if_neg hk]
        exact ih hrest

theorem lookupId_agree {f : String} (hf : f ≠ "_id") :
    ∀ {d d2 : Doc}, agreeDoc f d d2 = true →
      lookupField d "_id" = lookupField d2 "_id" := by
  intro d
  induction d with
  | nil =>
    intro d2 h
    cases d2 with
    | nil => rfl
    | cons x d2 => simp [agreeDoc] at h
  | cons kv d ih =>
    intro d2 h
    obtain ⟨k, v⟩ := kv
    cases d2 with
    | nil => simp [agreeDoc] at h
    | cons kv2 d2 =>
      obtain ⟨k2, v2⟩ := kv2
      simp only [agreeDoc, Bool.and_eq_true, Bool.or_eq_true, beq_iff_eq] at h
      obtain ⟨⟨rfl, hv⟩, hrest⟩ := h
      rw [lookupField_cons, lookupField_cons]
      by_cases hk : k = "_id"
      · rw [if_pos hk, if_pos hk]
        have hveq : v = v2 := by
          rcases hv with he | hv
          · exact absurd (hk ▸ he) (fun x => hf x.symm)
          · exact (valEq_iff v v2).mp hv
        rw [hveq]
      · rw [if_neg hk, if_neg hk]
        exact ih hrest

theorem buildDictFrom_agree {f : String} {excl : List String}
    (hf1 : f ∈ excl) (hf2 : f ≠ "_id") :
    ∀ {S S2 : List Doc} {m : Dict}, agreeDocs f S S2 = true →
      buildDictFrom excl m S = buildDictFrom excl m S2 := by
  intro S
  induction S with
  | nil =>
    intro S2 m h
    cases S2 with
    | nil => rfl
    | cons d S2 => simp [agreeDocs] at h
  | cons d S ih =>
    intro S2 m h
    cases S2 with
    | nil => simp [agreeDocs] at h
    | cons d2 S2 =>
      simp only [agreeDocs, Bool.and_eq_true] at h
      have hid := lookupId_agree hf2 h.1
      have hstrip := stripDoc_agree hf1 h.1
      rw [buildDictFrom, buildDictFrom, ← hid, hstrip]
      cases lookupField d "_id" with
      | none => rfl
      | some idv => exact ih h.2

/-! ### Counting lemmas and top-level dictionary facts -/

theorem buildDict_nodup {excl : List String} {S : List Doc} {sd : Dict}
    (h : buildDict excl S = some sd) : (dictKeys sd).Nodup :=
  buildDictFrom_nodup h (by simp [dictKeys])

theorem buildDict_keys_toFinset {excl : List String} {S : List Doc} {sd : Dict}
    (h : buildDict excl S = some sd) :
    (dictKeys sd).toFinset = (S.filterMap idStr).toFinset := by
  have hh := buildDictFrom_keys_toFinset h
  simpa [dictKeys] using hh

theorem buildDict_get {excl : List String} {S : List Doc} {m2 : Dict}
    (h : buildDict excl S = some m2) (k : String) :
    dictGet m2 k = (findLastDoc k S).map (stripDoc excl) := by
  have hg := buildDictFrom_get h k
  cases hf : findLastDoc k S with
  | some d =>
    rw [hf] at hg
    rw [hg]
    rfl
  | none =>
    rw [hf] at hg
    rw [hg]
    rfl

theorem length_filter_partition {α : Type} (p : α → Bool) (l : List α) :
    (l.filter p).length + (l.filter (fun a => !(p a))).length = l.length := by
  induction l with
  | nil => rfl
  | cons a l ih =>
    by_cases h : p a = true
    · rw [List.filter_cons_of_pos h, List.filter_cons_of_neg (by simp [h])]
      simp only [List.length_cons]
      omega
    · rw [List.filter_cons_of_neg (by simp_all), List.filter_cons_of_pos (by simp_all)]
      simp only [List.length_cons]
      omega

theorem filter_contains_card {l1 l2 : List String} (h : l1.Nodup) :
    (l1.filter (fun i => l2.contains i)).length = (l1.toFinset ∩ l2.toFinset).card := by
  rw [← List.toFinset_card_of_nodup (h.filter _)]
  congr 1
  ext a
  simp [List.mem_filter]

theorem filterMap_length_of_isSome {α β : Type} (f : α → Option β) (l : List α)
    (h : ∀ a ∈ l, (f a).isSome = true) : (l.filterMap f).length = l.length := by
  induction l with
  | nil => rfl
  | cons a l ih =>
    cases hf : f a with
    | none =>
      have hs := h a (by simp)
      rw [hf] at hs
      cases hs
    | some b =>
      rw [List.filterMap_cons, hf]
      simp only [List.length_cons]
      rw [ih (fun a ha => h a (by simp [ha]))]

/-! ### Claim theorems -/

/-- C1 (set completeness of the identity matcher): whenever
`compare_collections` returns a result, `common_count` plus the number of
`missing_in_target` documents equals the number of distinct stringified
identities of the source list, and `common_count` plus the number of
`missing_in_source` documents equals the number of distinct stringified
identities of the target list. -/
theorem c1_set_completeness (S T : List Doc) (n : String) (excl : List String)
    (r : CompareResult) (h : compare_collections S T n excl = some r) :
    r.common_count + r.missing_in_target.length = (S.filterMap idStr).toFinset.card ∧
    r.common_count + r.missing_in_source.length = (T.filterMap idStr).toFinset.card := by
  obtain ⟨sd, td, hs, ht, rfl⟩ := compare_collections_some_elim h
  have hnds : (dictKeys sd).Nodup := buildDict_nodup hs
  have hndt : (dictKeys td).Nodup := buildDict_nodup ht
  have hfs : (dictKeys sd).toFinset = (S.filterMap idStr).toFinset := buildDict_keys_toFinset hs
  have hft : (dictKeys td).toFinset = (T.filterMap idStr).toFinset := buildDict_keys_toFinset ht
  constructor
  · rw [compareDicts_common_count, compareDicts_missing_in_target, List.length_map]
    rw [length_filter_partition (fun i => (dictKeys td).contains i) (dictKeys sd)]
    rw [← List.toFinset_card_of_nodup hnds, hfs]
  · rw [compareDicts_common_count, compareDicts_missing_in_source, List.length_map]
    rw [filter_contains_card hnds]
    have h2 : ((dictKeys td).filter (fun i => (dictKeys sd).contains i)).length =
        ((dictKeys td).toFinset ∩ (dictKeys sd).toFinset).card :=
      filter_contains_card hndt
    rw [Finset.inter_comm] at h2
    rw [← h2]
    rw [length_filter_partition (fun i => (dictKeys sd).contains i) (dictKeys td)]
    rw [← List.toFinset_card_of_nodup hndt, hft]

/-- Concrete instantiation of C1: a two-document source against a
one-document target with one shared identity. -/
theorem c1_set_completeness_witness :
    (compare_collections [[("_id", Value.vstr "a"), ("x", Value.vint 1)],
        [("_id", Value.vstr "b")]]
      [[("_id", Value.vstr "a"), ("x", Value.vint 2)]] "c" []).all
      (fun r =>
        decide (r.common_count + r.missing_in_target.length =
          (([[("_id", Value.vstr "a"), ("x", Value.vint 1)],
            [("_id", Value.vstr "b")]] : List Doc).filterMap idStr).toFinset.card) &&
        decide (r.common_count + r.missing_in_source.length =
          (([[("_id", Value.vstr "a"), ("x", Value.vint 2)]] : List Doc).filterMap
            idStr).toFinset.card)) = true := by
  have h := c1_set_completeness
    [[("_id", Value.vstr "a"), ("x", Value.vint 1)], [("_id", Value.vstr "b")]]
    [[("_id", Value.vstr "a"), ("x", Value.vint 2)]] "c" []
    (compareDicts [("a", [("x", Value.vint 1)]), ("b", [])]
      [("a", [("x", Value.vint 2)])]) rfl
  rw [show compare_collections [[("_id", Value.vstr "a"), ("x", Value.vint 1)],
        [("_id", Value.vstr "b")]]
      [[("_id", Value.vstr "a"), ("x", Value.vint 2)]] "c" [] =
      some (compareDicts [("a", [("x", Value.vint 1)]), ("b", [])]
        [("a", [("x", Value.vint 2)])]) from rfl]
  rw [Option.all_some]
  simp only [Bool.and_eq_true, decide_eq_true_eq]
  exact h

/-- C4 (symmetry): whenever `compare_collections S T` returns a result, the
swapped run `compare_collections T S` also returns one, and the
`missing_in_source` list of the first equals the `missing_in_target` list of
the second as a set of documents, and vice versa (list order is
unspecified). -/
theorem c4_symmetry (S T : List Doc) (n : String) (excl : List String)
    (r : CompareResult) (h : compare_collections S T n excl = some r) :
    ∃ r2, compare_collections T S n excl = some r2 ∧
      (∀ d, d ∈ r.missing_in_source ↔ d ∈ r2.missing_in_target) ∧
      (∀ d, d ∈ r.missing_in_target ↔ d ∈ r2.missing_in_source) := by
  obtain ⟨sd, td, hs, ht, rfl⟩ := compare_collections_some_elim h
  refine ⟨compareDicts td sd, compare_collections_eq ht hs, ?_, ?_⟩
  · intro d
    rw [compareDicts_missing_in_source, compareDicts_missing_in_target]
  · intro d
    rw [compareDicts_missing_in_target, compareDicts_missing_in_source]

/-- Concrete instantiation of C4 on collections with one shared and two
one-sided identities. -/
theorem c4_symmetry_witness :
    ∃ r2, compare_collections [[("_id", Value.vstr "b")]]
        [[("_id", Value.vstr "a")], [("_id", Value.vstr "b")]] "c" [] = some r2 ∧
      (∀ d, d ∈ (compareDicts [("a", []), ("b", [])] [("b", [])]).missing_in_source ↔
        d ∈ r2.missing_in_target) ∧
      (∀ d, d ∈ (compareDicts [("a", []), ("b", [])] [("b", [])]).missing_in_target ↔
        d ∈ r2.missing_in_source) :=
  c4_symmetry [[("_id", Value.vstr "a")], [("_id", Value.vstr "b")]]
    [[("_id", Value.vstr "b")]] "c" []
    (compareDicts [("a", []), ("b", [])] [("b", [])]) rfl

/-- A dictionary build of lines 77-78 fails (`doc['_id']` raises
`KeyError`) exactly when some document of the list lacks `_id`. -/
theorem buildDict_eq_none_iff {excl : List String} {L : List Doc} :
    buildDict excl L = none ↔ ∃ d ∈ L, lookupField d "_id" = none := by
  constructor
  · intro hn
    by_contra hc
    push_neg at hc
    have hall : ∀ d ∈ L, (lookupField d "_id").isSome = true := by
      intro d hd
      cases hl : lookupField d "_id" with
      | none => exact absurd hl (hc d hd)
      | some v => rfl
    have hsome := (@buildDictFrom_isSome excl L []).mpr hall
    rw [show buildDictFrom excl [] L = buildDict excl L from rfl, hn] at hsome
    cases hsome
  · rintro ⟨d, hd, hl⟩
    cases hb : buildDict excl L with
    | none => rfl
    | some m =>
      have hall := (@buildDictFrom_isSome excl L []).mp
        (by rw [show buildDictFrom excl [] L = buildDict excl L from rfl, hb]; rfl)
      have hds := hall d hd
      rw [hl] at hds
      cases hds

/-- The reconciliation of lines 77-112 fails to produce a result exactly
when some input document lacks `_id`. -/
theorem compare_collections_eq_none_iff (S T : List Doc) (n : String)
    (excl : List String) :
    compare_collections S T n excl = none ↔
      ∃ d, d ∈ S ++ T ∧ lookupField d "_id" = none := by
  constructor
  · intro h
    unfold compare_collections at h
    cases hs : buildDict excl S with
    | none =>
      obtain ⟨d, hd, hl⟩ := buildDict_eq_none_iff.mp hs
      exact ⟨d, List.mem_append.mpr (Or.inl hd), hl⟩
    | some sd =>
      cases ht : buildDict excl T with
      | none =>
        obtain ⟨d, hd, hl⟩ := buildDict_eq_none_iff.mp ht
        exact ⟨d, List.mem_append.mpr (Or.inr hd), hl⟩
      | some td => rw [hs, ht] at h; cases h
  · rintro ⟨d, hd, hl⟩
    unfold compare_collections
    rcases List.mem_append.mp hd with hdS | hdT
    · rw [buildDict_eq_none_iff.mpr ⟨d, hdS, hl⟩]
    · rw [buildDict_eq_none_iff.mpr ⟨d, hdT, hl⟩]
      cases buildDict excl S <;> rfl

/-- The two ways a `compare_collections` call can raise: the `KeyError` of
`doc['_id']` on lines 77-78, and the `TypeError` raised by `json.dumps`
inside the logging of line 119 (both are caught on line 122 and
re-raised). -/
inductive RunError where
  | keyError : RunError
  | typeError : RunError
deriving DecidableEq

/-- Whether one DeepDiff report serializes under the `JSONEncoder` of lines
14-21: the `type_changes` entries of `DeepDiff.to_dict()` hold raw Python
type objects (`old_type`/`new_type`), which the encoder — handling only
`ObjectId` and `SetOrdered` — rejects with `TypeError`; every other report
kind carries only JSON-like values (or path strings), all encodable. -/
def changeEncodable : Change → Bool
  | .typeChanges _ _ => false
  | _ => true

def diffEncodable (items : List DiffItem) : Bool :=
  items.all (fun it => changeEncodable it.2)

/-- The full run of `compare_collections` (lines 68-124), logging included:
after the reconciliation of lines 77-112, line 118 tests
`if content_differences:` and line 119 then evaluates
`json.dumps(content_differences, indent=2, cls=JSONEncoder)` inside the log
message's f-string (evaluated unconditionally before the `logger.info`
call), which raises `TypeError` as soon as some diff holds a `type_changes`
report.  `compare_collections` above models the reconciliation value of
lines 77-112; this definition adds the remaining failure path. -/
def compare_collections_run (source_data target_data : List Doc)
    (collection_name : String) (exclude_fields : List String) :
    Except RunError CompareResult :=
  let _ := collection_name
  match buildDict exclude_fields source_data, buildDict exclude_fields target_data with
  | some sd, some td =>
    let r := compareDicts sd td
    if r.content_differences.isEmpty then Except.ok r
    else if r.content_differences.all (fun e => diffEncodable e.diff) then Except.ok r
    else Except.error RunError.typeError
  | _, _ => Except.error RunError.keyError

theorem compare_collections_run_of_some {S T : List Doc} {n : String}
    {excl : List String} {r : CompareResult}
    (h : compare_collections S T n excl = some r) :
    compare_collections_run S T n excl =
      (if r.content_differences.isEmpty then Except.ok r
       else if r.content_differences.all (fun e => diffEncodable e.diff) then Except.ok r
       else Except.error RunError.typeError) := by
  obtain ⟨sd, td, hs, ht, rfl⟩ := compare_collections_some_elim h
  unfold compare_collections_run
  rw [hs, ht]

theorem compare_collections_run_of_none {S T : List Doc} {n : String}
    {excl : List String} (h : compare_collections S T n excl = none) :
    compare_collections_run S T n excl = Except.error RunError.keyError := by
  unfold compare_collections at h
  unfold compare_collections_run
  cases hs : buildDict excl S with
  | none => cases ht : buildDict excl T <;> rfl
  | some sd =>
    cases ht : buildDict excl T with
    | none => rfl
    | some td => rw [hs, ht] at h; cases h

/-- C10, counterexample to the claim as stated: with `_id` present in every
input document, a common field whose TYPE changed — here `x : 1` on the
source side against `x : "1"` on the target side — produces a
`type_changes` diff whose raw type objects the `JSONEncoder` cannot
serialize, so the `json.dumps` of line 119 raises `TypeError` and the call
fails although no document lacks `_id`: the error branch is reachable on
inputs the claim declares safe. -/
theorem c10_id_precondition_counterexample :
    (∀ d ∈ ([[("_id", Value.vstr "a"), ("x", Value.vint 1)]] ++
        [[("_id", Value.vstr "a"), ("x", Value.vstr "1")]] : List Doc),
      (lookupField d "_id").isSome = true) ∧
    compare_collections_run [[("_id", Value.vstr "a"), ("x", Value.vint 1)]]
      [[("_id", Value.vstr "a"), ("x", Value.vstr "1")]] "c" [] =
      Except.error RunError.typeError := by
  constructor
  · intro d hd
    simp only [List.cons_append, List.nil_append, List.mem_cons,
      List.not_mem_nil, or_false] at hd
    rcases hd with rfl | rfl <;> rfl
  · have hdiff : deepDiff (.vobj [("x", Value.vint 1)]) (.vobj [("x", Value.vstr "1")]) =
        [([PathSeg.fieldSeg "x"], Change.typeChanges (Value.vint 1) (Value.vstr "1"))] := by
      rw [deepDiff_obj, diffCommon_cons]
      rw [show lookupField [("x", Value.vstr "1")] "x" = some (Value.vstr "1") from rfl]
      simp [deepDiff, diffCommon, withSeg, hasKey]
    have hcd : (compareDicts [("a", [("x", Value.vint 1)])]
        [("a", [("x", Value.vstr "1")])]).content_differences =
        [⟨"a", [("x", Value.vint 1)], [("x", Value.vstr "1")],
          [([PathSeg.fieldSeg "x"], Change.typeChanges (Value.vint 1) (Value.vstr "1"))]⟩] := by
      rw [compareDicts_content_differences]
      rw [show (dictKeys [("a", [("x", Value.vint 1)])]).filter
          (fun i => (dictKeys [("a", [("x", Value.vstr "1")])]).contains i) = ["a"] from rfl]
      simp only [List.filterMap_cons, List.filterMap_nil]
      rw [diffEntryFor_eq_some
        (show dictGet [("a", [("x", Value.vint 1)])] "a" = some [("x", Value.vint 1)] from rfl)
        (show dictGet [("a", [("x", Value.vstr "1")])] "a" = some [("x", Value.vstr "1")] from rfl)
        (by rw [hdiff]; simp)]
      rw [hdiff]
    rw [compare_collections_run_of_some
      (show compare_collections [[("_id", Value.vstr "a"), ("x", Value.vint 1)]]
        [[("_id", Value.vstr "a"), ("x", Value.vstr "1")]] "c" [] =
        some (compareDicts [("a", [("x", Value.vint 1)])]
          [("a", [("x", Value.vstr "1")])]) from rfl)]
    rw [hcd]
    rfl

/-- C10, amended (failure characterization of the identity-field
precondition): the full run of `compare_collections` raises the key-lookup
error exactly when some input document lacks `_id`; with `_id` everywhere
the reconciliation of lines 77-112 always completes, and the one remaining
failure is the `TypeError` of the line-119 logging serialization, raised
exactly when some emitted content difference holds a `type_changes` report;
the call returns a result exactly when the reconciliation succeeds and
every reported diff is free of type changes. -/
theorem c10_failure_characterization (S T : List Doc) (n : String)
    (excl : List String) :
    (compare_collections_run S T n excl = Except.error RunError.keyError ↔
      ∃ d, d ∈ S ++ T ∧ lookupField d "_id" = none) ∧
    (compare_collections_run S T n excl = Except.error RunError.typeError ↔
      ∃ r, compare_collections S T n excl = some r ∧
        ¬r.content_differences.all (fun e => diffEncodable e.diff) = true) ∧
    (∀ r, compare_collections_run S T n excl = Except.ok r ↔
      (compare_collections S T n excl = some r ∧
        r.content_differences.all (fun e => diffEncodable e.diff) = true)) := by
  refine ⟨⟨?_, ?_⟩, ⟨?_, ?_⟩, ?_⟩
  · intro h
    cases hc : compare_collections S T n excl with
    | none => exact (compare_collections_eq_none_iff S T n excl).mp hc
    | some r =>
      rw [compare_collections_run_of_some hc] at h
      by_cases h1 : r.content_differences.isEmpty = true
      · rw [if_pos h1] at h
        simp at h
      · rw [if_neg h1] at h
        by_cases h2 : r.content_differences.all (fun e => diffEncodable e.diff) = true
        · rw [if_pos h2] at h
          simp at h
        · rw [if_neg h2] at h
          simp at h
  · rintro ⟨d, hd, hl⟩
    exact compare_collections_run_of_none
      ((compare_collections_eq_none_iff S T n excl).mpr ⟨d, hd, hl⟩)
  · intro h
    cases hc : compare_collections S T n excl with
    | none =>
      rw [compare_collections_run_of_none hc] at h
      simp at h
    | some r =>
      rw [compare_collections_run_of_some hc] at h
      by_cases h1 : r.content_differences.isEmpty = true
      · rw [if_pos h1] at h
        simp at h
      · rw [if_neg h1] at h
        by_cases h2 : r.content_differences.all (fun e => diffEncodable e.diff) = true
        · rw [if_pos h2] at h
          simp at h
        · exact ⟨r, rfl, h2⟩
  · rintro ⟨r, hc, hna⟩
    rw [compare_collections_run_of_some hc]
    have h1 : ¬r.content_differences.isEmpty = true := by
      intro hie
      apply hna
      rw [List.isEmpty_iff] at hie
      rw [hie]
      rfl
    rw [if_neg h1, if_neg hna]
  · intro r
    constructor
    · intro h
      cases hc : compare_collections S T n excl with
      | none =>
        rw [compare_collections_run_of_none hc] at h
        simp at h
      | some r2 =>
        rw [compare_collections_run_of_some hc] at h
        by_cases h1 : r2.content_differences.isEmpty = true
        · rw [if_pos h1] at h
          have he : r2 = r := by
            simpa using h
          subst he
          refine ⟨rfl, ?_⟩
          rw [List.isEmpty_iff] at h1
          rw [h1]
          rfl
        · rw [if_neg h1] at h
          by_cases h2 : r2.content_differences.all (fun e => diffEncodable e.diff) = true
          · rw [if_pos h2] at h
            have he : r2 = r := by
              simpa using h
            subst he
            exact ⟨rfl, h2⟩
          · rw [if_neg h2] at h
            simp at h
    · rintro ⟨hc, hall⟩
      rw [compare_collections_run_of_some hc]
      by_cases h1 : r.content_differences.isEmpty = true
      · rw [if_pos h1]
      · rw [if_neg h1, if_pos hall]

/-- C9 (implicit last-write-wins on duplicate identities): every document in
the missing lists, and both documents of every content-difference entry, are
the exclusion-stripped form of the LAST input document (in input order)
carrying that stringified identity; earlier duplicates are discarded. -/
theorem c9_last_write_wins (S T : List Doc) (n : String) (excl : List String)
    (r : CompareResult) (h : compare_collections S T n excl = some r) :
    (∀ doc, doc ∈ r.missing_in_target → ∃ i d, findLastDoc i S = some d ∧
      idStr d = some i ∧ doc = ("_id", Value.vstr i) :: stripDoc excl d) ∧
    (∀ doc, doc ∈ r.missing_in_source → ∃ i d, findLastDoc i T = some d ∧
      idStr d = some i ∧ doc = ("_id", Value.vstr i) :: stripDoc excl d) ∧
    (∀ e, e ∈ r.content_differences → ∃ ds dt,
      findLastDoc e.id S = some ds ∧ findLastDoc e.id T = some dt ∧
      e.source_doc = stripDoc excl ds ∧ e.target_doc = stripDoc excl dt) := by
  obtain ⟨sd, td, hs, ht, rfl⟩ := compare_collections_some_elim h
  refine ⟨?_, ?_, ?_⟩
  · intro doc hdoc
    rw [compareDicts_missing_in_target] at hdoc
    obtain ⟨i, hi, rfl⟩ := List.mem_map.mp hdoc
    have hmem : i ∈ dictKeys sd := (List.mem_filter.mp hi).1
    have hsome : (dictGet sd i).isSome = true := dictGet_isSome_iff.mpr hmem
    cases hget : dictGet sd i with
    | none => rw [hget] at hsome; cases hsome
    | some v =>
      have hv := buildDict_get hs i
      rw [hget] at hv
      cases hfl : findLastDoc i S with
      | none => rw [hfl] at hv; cases hv
      | some d =>
        rw [hfl] at hv
        have hvd : v = stripDoc excl d := by
          simpa using hv
        refine ⟨i, d, hfl, (findLastDoc_spec hfl).2, ?_⟩
        rw [hvd]
        rfl
  · intro doc hdoc
    rw [compareDicts_missing_in_source] at hdoc
    obtain ⟨i, hi, rfl⟩ := List.mem_map.mp hdoc
    have hmem : i ∈ dictKeys td := (List.mem_filter.mp hi).1
    have hsome : (dictGet td i).isSome = true := dictGet_isSome_iff.mpr hmem
    cases hget : dictGet td i with
    | none => rw [hget] at hsome; cases hsome
    | some v =>
      have hv := buildDict_get ht i
      rw [hget] at hv
      cases hfl : findLastDoc i T with
      | none => rw [hfl] at hv; cases hv
      | some d =>
        rw [hfl] at hv
        have hvd : v = stripDoc excl d := by
          simpa using hv
        refine ⟨i, d, hfl, (findLastDoc_spec hfl).2, ?_⟩
        rw [hvd]
        rfl
  · intro e he
    rw [compareDicts_content_differences] at he
    obtain ⟨i, _, hde⟩ := List.mem_filterMap.mp he
    obtain ⟨hid, hsrc, htgt, _, _⟩ := diffEntryFor_elim hde
    subst hid
    have hvs := buildDict_get hs e.id
    have hvt := buildDict_get ht e.id
    rw [hsrc] at hvs
    rw [htgt] at hvt
    cases hfs : findLastDoc e.id S with
    | none => rw [hfs] at hvs; cases hvs
    | some ds =>
      cases hft : findLastDoc e.id T with
      | none => rw [hft] at hvt; cases hvt
      | some dt =>
        rw [hfs] at hvs
        rw [hft] at hvt
        exact ⟨ds, dt, rfl, rfl, by simpa using hvs, by simpa using hvt⟩

/-- Concrete instantiation of C9: the source holds two documents with the
same identity and different payloads; the reported missing document carries
the payload of the second (last) one. -/
theorem c9_last_write_wins_witness :
    ∃ i d, findLastDoc i [[("_id", Value.vstr "a"), ("v", Value.vint 1)],
        [("_id", Value.vstr "a"), ("v", Value.vint 2)]] = some d ∧
      idStr d = some i ∧
      ([("_id", Value.vstr "a"), ("v", Value.vint 2)] : Doc) =
        ("_id", Value.vstr i) :: stripDoc [] d := by
  have h := c9_last_write_wins
    [[("_id", Value.vstr "a"), ("v", Value.vint 1)],
      [("_id", Value.vstr "a"), ("v", Value.vint 2)]] [] "c" []
    (compareDicts [("a", [("v", Value.vint 2)])] []) rfl
  exact h.1 [("_id", Value.vstr "a"), ("v", Value.vint 2)] (by
    rw [compareDicts_missing_in_target]
    exact List.mem_map.mpr ⟨"a", by decide, rfl⟩)

theorem wfVal_vobj {d : Doc} : wfVal (.vobj d) = wfDoc d := by
  simp [wfVal, wfDoc]

/-- C3 (idempotence): reconciling a collection of wellformed documents with
pairwise-distinct stringified identities against itself yields empty missing
lists, `common_count` equal to the number of documents, and no content
differences. -/
theorem c3_idempotence (S : List Doc) (n : String) (excl : List String)
    (hwf : ∀ d ∈ S, wfDoc d = true)
    (hid : ∀ d ∈ S, (lookupField d "_id").isSome = true)
    (hnodup : (S.filterMap idStr).Nodup) :
    compare_collections S S n excl = some ⟨[], [], S.length, []⟩ := by
  cases hb : buildDict excl S with
  | none =>
    have hsome := (@buildDictFrom_isSome excl S []).mpr hid
    rw [show buildDictFrom excl [] S = buildDict excl S from rfl, hb] at hsome
    cases hsome
  | some sd =>
    have hkeys : dictKeys sd = S.filterMap idStr := by
      have := buildDictFrom_keys_app hb (by simpa [dictKeys] using hnodup)
      simpa [dictKeys] using this
    rw [compare_collections_eq hb hb]
    have h1 : (compareDicts sd sd).missing_in_source = [] := by
      rw [compareDicts_missing_in_source]
      rw [show (dictKeys sd).filter (fun i => !((dictKeys sd).contains i)) = [] from ?_]
      · rfl
      · rw [List.filter_eq_nil_iff]
        intro a ha
        simp [ha]
    have h2 : (compareDicts sd sd).missing_in_target = [] := by
      rw [compareDicts_missing_in_target]
      rw [show (dictKeys sd).filter (fun i => !((dictKeys sd).contains i)) = [] from ?_]
      · rfl
      · rw [List.filter_eq_nil_iff]
        intro a ha
        simp [ha]
    have hself : (dictKeys sd).filter (fun i => (dictKeys sd).contains i) = dictKeys sd := by
      rw [List.filter_eq_self]
      intro a ha
      simp [ha]
    have h3 : (compareDicts sd sd).common_count = S.length := by
      rw [compareDicts_common_count, hself, hkeys]
      exact filterMap_length_of_isSome idStr S (fun d hd => by
        have := hid d hd
        cases hl : lookupField d "_id" with
        | none => rw [hl] at this; cases this
        | some v => simp [idStr, hl])
    have h4 : (compareDicts sd sd).content_differences = [] := by
      rw [compareDicts_content_differences, hself]
      rw [List.filterMap_eq_nil_iff]
      intro i hi
      have hsome : (dictGet sd i).isSome = true := dictGet_isSome_iff.mpr hi
      cases hget : dictGet sd i with
      | none => rw [hget] at hsome; cases hsome
      | some v =>
        have hv := buildDict_get hb i
        rw [hget] at hv
        cases hfl : findLastDoc i S with
        | none => rw [hfl] at hv; cases hv
        | some d =>
          rw [hfl] at hv
          have hvd : v = stripDoc excl d := by simpa using hv
          have hdmem : d ∈ S := (findLastDoc_spec hfl).1
          have hwfv : wfVal (.vobj v) = true := by
            rw [wfVal_vobj, hvd]
            exact wfDoc_stripDoc (hwf d hdmem)
          exact diffEntryFor_eq_none hget hget (deepDiff_self hwfv)
    rw [show compareDicts sd sd =
        ⟨(compareDicts sd sd).missing_in_source, (compareDicts sd sd).missing_in_target,
         (compareDicts sd sd).common_count, (compareDicts sd sd).content_differences⟩
      from rfl]
    rw [h1, h2, h3, h4]

/-- Concrete instantiation of C3: a two-document collection reconciled
against itself. -/
theorem c3_idempotence_witness :
    compare_collections
      [[("_id", Value.vstr "a"), ("x", Value.vint 1)], [("_id", Value.vstr "b")]]
      [[("_id", Value.vstr "a"), ("x", Value.vint 1)], [("_id", Value.vstr "b")]]
      "c" [] = some ⟨[], [], 2, []⟩ := by
  have h := c3_idempotence
    [[("_id", Value.vstr "a"), ("x", Value.vint 1)], [("_id", Value.vstr "b")]] "c" []
    (by
      intro d hd
      simp only [List.mem_cons, List.not_mem_nil, or_false] at hd
      rcases hd with rfl | rfl <;>
        simp [wfDoc, nodupKeysB, wfFields, wfVal, wfList])
    (by
      intro d hd
      simp only [List.mem_cons, List.not_mem_nil, or_false] at hd
      rcases hd with rfl | rfl <;> rfl)
    (by decide)
  exact h

/-- C2, counterexample to the claim as stated: `"_id"` is itself a field
name that may be placed in the exclusion set, and two runs of
`compare_collections` whose inputs differ only in the value of that excluded
field produce different results — the key-building of lines 77-78 always
keys on `str(doc['_id'])`, excluded or not.  Hence an excluded field CAN
affect matching when it is the identity field. -/
theorem c2_exclusion_counterexample :
    "_id" ∈ (["_id"] : List String) ∧
    agreeDocs "_id" [[("_id", Value.vstr "1")]] [[("_id", Value.vstr "2")]] = true ∧
    compare_collections [[("_id", Value.vstr "1")]] [] "c" ["_id"] ≠
      compare_collections [[("_id", Value.vstr "2")]] [] "c" ["_id"] := by
  refine ⟨by simp, ?_, ?_⟩
  · simp [agreeDocs, agreeDoc]
  · rw [show compare_collections [[("_id", Value.vstr "1")]] [] "c" ["_id"] =
        some (compareDicts [("1", [])] []) from rfl]
    rw [show compare_collections [[("_id", Value.vstr "2")]] [] "c" ["_id"] =
        some (compareDicts [("2", [])] []) from rfl]
    rw [show compareDicts [("1", [])] [] =
        ⟨[], [[("_id", Value.vstr "1")]], 0, []⟩ from rfl]
    rw [show compareDicts [("2", [])] [] =
        ⟨[], [[("_id", Value.vstr "2")]], 0, []⟩ from rfl]
    intro h
    simp only [Option.some.injEq, CompareResult.mk.injEq, List.cons.injEq,
      Prod.mk.injEq, Value.vstr.injEq, and_true, true_and] at h
    exact absurd h (by decide)

/-- C2, amended (exclusion transparency for non-identity fields): for every
field `f` of the exclusion set OTHER THAN the identity field `_id`, two runs
of `compare_collections` whose inputs agree everywhere except in the value
of field `f` produce identical results; moreover no excluded field ever
appears in a `content_differences` entry: the emitted documents do not bind
it and no diff path starts at it. -/
theorem c2_exclusion_transparency_amended (S S2 T T2 : List Doc) (n : String)
    (excl : List String) (f : String)
    (hf1 : f ∈ excl) (hf2 : f ≠ "_id")
    (hS : agreeDocs f S S2 = true) (hT : agreeDocs f T T2 = true) :
    compare_collections S T n excl = compare_collections S2 T2 n excl ∧
    (∀ r, compare_collections S T n excl = some r →
      ∀ e ∈ r.content_differences, ∀ g ∈ excl,
        lookupField e.source_doc g = none ∧ lookupField e.target_doc g = none ∧
        ∀ it ∈ e.diff, it.1.head? ≠ some (PathSeg.fieldSeg g)) := by
  constructor
  · have h1 : buildDict excl S = buildDict excl S2 := buildDictFrom_agree hf1 hf2 hS
    have h2 : buildDict excl T = buildDict excl T2 := buildDictFrom_agree hf1 hf2 hT
    unfold compare_collections
    rw [h1, h2]
  · intro r hr e he g hg
    obtain ⟨sd, td, hs, ht, rfl⟩ := compare_collections_some_elim hr
    rw [compareDicts_content_differences] at he
    obtain ⟨i, _, hde⟩ := List.mem_filterMap.mp he
    obtain ⟨_, hsrc, htgt, hdiff, _⟩ := diffEntryFor_elim hde
    have hvs := buildDict_get hs i
    have hvt := buildDict_get ht i
    rw [hsrc] at hvs
    rw [htgt] at hvt
    cases hfs : findLastDoc i S with
    | none => rw [hfs] at hvs; cases hvs
    | some ds =>
      cases hft : findLastDoc i T with
      | none => rw [hft] at hvt; cases hvt
      | some dt =>
        rw [hfs] at hvs
        rw [hft] at hvt
        have hes : e.source_doc = stripDoc excl ds := by simpa using hvs
        have het : e.target_doc = stripDoc excl dt := by simpa using hvt
        refine ⟨by rw [hes]; exact lookupField_stripDoc_of_mem hg,
          by rw [het]; exact lookupField_stripDoc_of_mem hg, ?_⟩
        intro it hit
        rw [hdiff] at hit
        obtain ⟨k, hh, hk⟩ := deepDiff_obj_head hit
        have hkg : k ≠ g := by
          rintro rfl
          rcases hk with hk | hk
          · rw [hes, hasKey_stripDoc_of_mem hg] at hk
            cases hk
          · rw [het, hasKey_stripDoc_of_mem hg] at hk
            cases hk
        rw [hh]
        intro hcon
        exact hkg (by injection (Option.some.injEq _ _ ▸ hcon : PathSeg.fieldSeg k = PathSeg.fieldSeg g))

/-- Concrete instantiation of the amended C2: excluding field `x` makes two
runs differing only in `x` agree exactly. -/
theorem c2_exclusion_transparency_witness :
    compare_collections [[("_id", Value.vstr "a"), ("x", Value.vint 1)]]
        [[("_id", Value.vstr "a"), ("x", Value.vint 3)]] "c" ["x"] =
      compare_collections [[("_id", Value.vstr "a"), ("x", Value.vint 2)]]
        [[("_id", Value.vstr "a"), ("x", Value.vint 4)]] "c" ["x"] ∧
    (∀ r, compare_collections [[("_id", Value.vstr "a"), ("x", Value.vint 1)]]
        [[("_id", Value.vstr "a"), ("x", Value.vint 3)]] "c" ["x"] = some r →
      ∀ e ∈ r.content_differences, ∀ g ∈ (["x"] : List String),
        lookupField e.source_doc g = none ∧ lookupField e.target_doc g = none ∧
        ∀ it ∈ e.diff, it.1.head? ≠ some (PathSeg.fieldSeg g)) :=
  c2_exclusion_transparency_amended
    [[("_id", Value.vstr "a"), ("x", Value.vint 1)]]
    [[("_id", Value.vstr "a"), ("x", Value.vint 2)]]
    [[("_id", Value.vstr "a"), ("x", Value.vint 3)]]
    [[("_id", Value.vstr "a"), ("x", Value.vint 4)]]
    "c" ["x"] "x" (by simp) (by decide)
    (by simp [agreeDocs, agreeDoc, valEq_iff])
    (by simp [agreeDocs, agreeDoc, valEq_iff])

/-- C8 (diff emptiness / zero-diff exclusion): if a common identity's two
post-exclusion documents are deeply equal — same key-value bindings, with
mapping key insertion order irrelevant at every nesting level — then their
DeepDiff is empty and no `content_differences` entry is emitted for that
identity. -/
theorem c8_zero_diff_exclusion (S T : List Doc) (n : String) (excl : List String)
    (r : CompareResult) (h : compare_collections S T n excl = some r)
    (sd td : Dict) (hs : buildDict excl S = some sd) (ht : buildDict excl T = some td)
    (i : String) (src tgt : Doc)
    (hsrc : dictGet sd i = some src) (htgt : dictGet td i = some tgt)
    (heq : deepEq (.vobj src) (.vobj tgt) = true) :
    deepDiff (.vobj src) (.vobj tgt) = [] ∧
    ∀ e ∈ r.content_differences, e.id ≠ i := by
  have hnil : deepDiff (.vobj src) (.vobj tgt) = [] := (deepDiff_nil_iff _ _).mpr heq
  obtain ⟨sd2, td2, hs2, ht2, rfl⟩ := compare_collections_some_elim h
  rw [hs] at hs2
  rw [ht] at ht2
  obtain rfl : sd = sd2 := by injection hs2
  obtain rfl : td = td2 := by injection ht2
  refine ⟨hnil, ?_⟩
  intro e he hei
  rw [compareDicts_content_differences] at he
  obtain ⟨j, _, hde⟩ := List.mem_filterMap.mp he
  have hid := (diffEntryFor_elim hde).1
  have hji : j = i := hid.symm.trans hei
  rw [hji] at hde
  rw [diffEntryFor_eq_none hsrc htgt hnil] at hde
  cases hde

/-- Concrete instantiation of C8: the shared identity's documents bind the
same keys in opposite insertion order; no content difference is reported. -/
theorem c8_zero_diff_exclusion_witness :
    deepDiff (.vobj [("p", Value.vint 1), ("q", Value.vint 2)])
        (.vobj [("q", Value.vint 2), ("p", Value.vint 1)]) = [] ∧
    ∀ e ∈ (compareDicts [("a", [("p", Value.vint 1), ("q", Value.vint 2)])]
        [("a", [("q", Value.vint 2), ("p", Value.vint 1)])]).content_differences,
      e.id ≠ "a" := by
  have h := c8_zero_diff_exclusion
    [[("_id", Value.vstr "a"), ("p", Value.vint 1), ("q", Value.vint 2)]]
    [[("_id", Value.vstr "a"), ("q", Value.vint 2), ("p", Value.vint 1)]]
    "c" []
    (compareDicts [("a", [("p", Value.vint 1), ("q", Value.vint 2)])]
      [("a", [("q", Value.vint 2), ("p", Value.vint 1)])]) rfl
    [("a", [("p", Value.vint 1), ("q", Value.vint 2)])]
    [("a", [("q", Value.vint 2), ("p", Value.vint 1)])]
    rfl rfl "a"
    [("p", Value.vint 1), ("q", Value.vint 2)]
    [("q", Value.vint 2), ("p", Value.vint 1)]
    rfl rfl
    (by simp [deepEq, deepEqFields, deepEqList, lookupField_cons, hasKey])
  exact h

/-- C7 (order sensitivity of sequence diffing): take a common identity whose
two post-exclusion documents are identical except at one sequence-valued
field, where the target holds a permutation of the source's elements that is
not deeply equal to it (i.e. genuinely reordered).  Then the pair's DeepDiff
is non-empty, the pair appears in `content_differences`, and a difference is
reported at that field's path. -/
theorem c7_order_sensitivity (S T : List Doc) (n : String) (excl : List String)
    (r : CompareResult) (h : compare_collections S T n excl = some r)
    (sd td : Dict) (hs : buildDict excl S = some sd) (ht : buildDict excl T = some td)
    (i : String) (src : Doc) (j : Nat) (k : String) (xs ys : List Value)
    (hsrc : dictGet sd i = some src)
    (htgt : dictGet td i = some (src.set j (k, Value.varr ys)))
    (hj : src.get? j = some (k, Value.varr xs))
    (hperm : xs.Perm ys) (hneq : deepEqList xs ys = false)
    (hwf : wfDoc src = true) :
    ∃ e ∈ r.content_differences, e.id = i ∧ e.diff ≠ [] ∧
      ∃ it ∈ e.diff, it.1.head? = some (PathSeg.fieldSeg k) := by
  obtain ⟨sd2, td2, hs2, ht2, rfl⟩ := compare_collections_some_elim h
  rw [hs] at hs2
  rw [ht] at ht2
  obtain rfl : sd = sd2 := by injection hs2
  obtain rfl : td = td2 := by injection ht2
  have hwf2 : nodupKeysB src = true ∧ wfFields src = true := by
    simpa [wfDoc] using hwf
  have hkeys : src.map Prod.fst = (src.set j (k, Value.varr ys)).map Prod.fst :=
    (set_keys_map src j k (Value.varr xs) (Value.varr ys) hj).symm
  have hdiffdoc : deepDiff (.vobj src) (.vobj (src.set j (k, Value.varr ys))) =
      withSeg (PathSeg.fieldSeg k) (deepDiff (.varr xs) (.varr ys)) := by
    rw [deepDiff_obj_same_keys hkeys]
    exact diffCommon_set src j k (Value.varr xs) (Value.varr ys) hj hwf2.1 hwf2.2
  have harrne : deepDiff (.varr xs) (.varr ys) ≠ [] := by
    intro hnil
    have hde := (deepDiff_nil_iff _ _).mp hnil
    rw [deepEq_arr] at hde
    rw [hde] at hneq
    cases hneq
  have hdocne : deepDiff (.vobj src) (.vobj (src.set j (k, Value.varr ys))) ≠ [] := by
    rw [hdiffdoc]
    intro hcon
    exact harrne (withSeg_eq_nil.mp hcon)
  refine ⟨⟨i, src, src.set j (k, Value.varr ys),
    deepDiff (.vobj src) (.vobj (src.set j (k, Value.varr ys)))⟩, ?_, rfl, hdocne, ?_⟩
  · rw [compareDicts_content_differences]
    apply List.mem_filterMap.mpr
    refine ⟨i, ?_, diffEntryFor_eq_some hsrc htgt hdocne⟩
    rw [List.mem_filter]
    refine ⟨mem_dictKeys_of_get hsrc, ?_⟩
    have hmem := mem_dictKeys_of_get htgt
    simpa using hmem
  · cases hitems : deepDiff (.varr xs) (.varr ys) with
    | nil => exact absurd hitems harrne
    | cons it0 rest =>
      refine ⟨(PathSeg.fieldSeg k :: it0.1, it0.2), ?_, rfl⟩
      rw [show (⟨i, src, src.set j (k, Value.varr ys),
          deepDiff (.vobj src) (.vobj (src.set j (k, Value.varr ys)))⟩ : DiffEntry).diff =
        deepDiff (.vobj src) (.vobj (src.set j (k, Value.varr ys))) from rfl]
      rw [hdiffdoc, hitems]
      simp [withSeg]

/-- Concrete instantiation of C7: the field `t` holds `[1, 2]` on the source
side and `[2, 1]` on the target side; the pair is reported with a diff under
`t`. -/
theorem c7_order_sensitivity_witness :
    ∃ e ∈ (compareDicts [("a", [("t", Value.varr [Value.vint 1, Value.vint 2])])]
        [("a", [("t", Value.varr [Value.vint 2, Value.vint 1])])]).content_differences,
      e.id = "a" ∧ e.diff ≠ [] ∧
      ∃ it ∈ e.diff, it.1.head? = some (PathSeg.fieldSeg "t") := by
  have h := c7_order_sensitivity
    [[("_id", Value.vstr "a"), ("t", Value.varr [Value.vint 1, Value.vint 2])]]
    [[("_id", Value.vstr "a"), ("t", Value.varr [Value.vint 2, Value.vint 1])]]
    "c" []
    (compareDicts [("a", [("t", Value.varr [Value.vint 1, Value.vint 2])])]
      [("a", [("t", Value.varr [Value.vint 2, Value.vint 1])])]) rfl
    [("a", [("t", Value.varr [Value.vint 1, Value.vint 2])])]
    [("a", [("t", Value.varr [Value.vint 2, Value.vint 1])])]
    rfl rfl "a"
    [("t", Value.varr [Value.vint 1, Value.vint 2])] 0 "t"
    [Value.vint 1, Value.vint 2] [Value.vint 2, Value.vint 1]
    rfl rfl rfl
    (List.Perm.swap (Value.vint 2) (Value.vint 1) [])
    (by simp [deepEqList, deepEq])
    (by simp [wfDoc, nodupKeysB, wfFields, wfVal, wfList])
  exact h

theorem oidFree_renderFields {d : Doc} : oidFreeFields (renderFields d) = true := by
  rw [oidFreeFields_iff, renderFields_eq_map]
  intro kv hkv
  obtain ⟨kw, _, rfl⟩ := List.mem_map.mp hkv
  exact oidFree_render kw.2

/-- C6 (opaque identity rendering): once a reconciliation result is
serialized through the `JSONEncoder` (as `compare_collections` and `main`
do for every emitted report), an ObjectId renders as exactly its canonical
string, the `_id` of every missing-list document is a string, and no
internal ObjectId representation survives anywhere — not in the missing
documents, not in the `source_doc`/`target_doc` of a difference entry, and
not in the reported old/new values of the diff itself. -/
theorem c6_opaque_identity_rendering (S T : List Doc) (n : String)
    (excl : List String) (r : CompareResult)
    (h : compare_collections S T n excl = some r) :
    (∀ s, renderValue (.void s) = .vstr s) ∧
    (∀ d, d ∈ (renderResult r).missing_in_source ++ (renderResult r).missing_in_target →
      oidFreeFields d = true ∧ ∃ s, lookupField d "_id" = some (.vstr s)) ∧
    (∀ e, e ∈ (renderResult r).content_differences →
      oidFreeFields e.source_doc = true ∧ oidFreeFields e.target_doc = true ∧
      oidFreeDiff e.diff = true) := by
  obtain ⟨sd, td, hs, ht, rfl⟩ := compare_collections_some_elim h
  refine ⟨fun s => by simp [renderValue], ?_, ?_⟩
  · intro d hd
    have hshape : ∃ i d0, d = renderFields (("_id", Value.vstr i) :: d0) := by
      rcases List.mem_append.mp hd with hd | hd
      · obtain ⟨d0, hd0, rfl⟩ := List.mem_map.mp hd
        rw [compareDicts_missing_in_source] at hd0
        obtain ⟨i, _, rfl⟩ := List.mem_map.mp hd0
        exact ⟨i, _, rfl⟩
      · obtain ⟨d0, hd0, rfl⟩ := List.mem_map.mp hd
        rw [compareDicts_missing_in_target] at hd0
        obtain ⟨i, _, rfl⟩ := List.mem_map.mp hd0
        exact ⟨i, _, rfl⟩
    obtain ⟨i, d0, rfl⟩ := hshape
    refine ⟨oidFree_renderFields, i, ?_⟩
    rw [show renderFields (("_id", Value.vstr i) :: d0) =
      ("_id", renderValue (Value.vstr i)) :: renderFields d0 from by simp [renderFields]]
    rw [show renderValue (Value.vstr i) = Value.vstr i from by simp [renderValue]]
    rw [lookupField_cons, if_pos rfl]
  · intro e he
    obtain ⟨e0, _, rfl⟩ := List.mem_map.mp he
    exact ⟨oidFree_renderFields, oidFree_renderFields, oidFree_renderDiff e0.diff⟩

/-- Concrete instantiation of C6 on a source document whose `_id` and `ref`
fields are ObjectIds. -/
theorem c6_opaque_identity_rendering_witness :
    (∀ s, renderValue (.void s) = .vstr s) ∧
    (∀ d, d ∈ (renderResult (compareDicts
        [("48656c6c6f2c20576f726c6421", [("ref", Value.void "aabbcc")])] [])).missing_in_source ++
      (renderResult (compareDicts
        [("48656c6c6f2c20576f726c6421", [("ref", Value.void "aabbcc")])] [])).missing_in_target →
      oidFreeFields d = true ∧ ∃ s, lookupField d "_id" = some (.vstr s)) ∧
    (∀ e, e ∈ (renderResult (compareDicts
        [("48656c6c6f2c20576f726c6421", [("ref", Value.void "aabbcc")])] [])).content_differences →
      oidFreeFields e.source_doc = true ∧ oidFreeFields e.target_doc = true ∧
      oidFreeDiff e.diff = true) :=
  c6_opaque_identity_rendering
    [[("_id", Value.void "48656c6c6f2c20576f726c6421"), ("ref", Value.void "aabbcc")]]
    [] "c" []
    (compareDicts [("48656c6c6f2c20576f726c6421", [("ref", Value.void "aabbcc")])] [])
    rfl

/-! ### The canonicalizer `make_hashable` (lines 23-33)

`make_hashable` is defined over general Python values: in addition to the
JSON shapes it can meet tuples, sets, and ObjectId values (held as their
12-byte content, since Python orders ObjectIds by their bytes while `str`
renders them in hex). -/

inductive PyVal where
  | pnone : PyVal
  | pbool : Bool → PyVal
  | pint : Int → PyVal
  | pstr : String → PyVal
  | poid : List Nat → PyVal
  | ptuple : List PyVal → PyVal
  | plist : List PyVal → PyVal
  | pset : List PyVal → PyVal
  | pdict : List (String × PyVal) → PyVal

def boolInt (b : Bool) : Int := if b then 1 else 0

def charCmp (a b : Char) : Ordering := compare a.toNat b.toNat

def charListCmp : List Char → List Char → Ordering
  | [], [] => .eq
  | [], _ :: _ => .lt
  | _ :: _, [] => .gt
  | a :: as, b :: bs =>
    match charCmp a b with
    | Ordering.eq => charListCmp as bs
    | o => o

/-- Python string comparison: lexicographic on code points. -/
def strCmp (s t : String) : Ordering := charListCmp s.data t.data

/-- Python ObjectId comparison: lexicographic on the 12 raw bytes. -/
def natListCmp : List Nat → List Nat → Ordering
  | [], [] => .eq
  | [], _ :: _ => .lt
  | _ :: _, [] => .gt
  | a :: as, b :: bs =>
    match compare a b with
    | Ordering.eq => natListCmp as bs
    | o => o

mutual
/-- Python rich comparison on the values `make_hashable` can meet: `none`
models a `TypeError` (unsupported operand types).  Booleans compare as their
integer values; tuples compare lexicographically. -/
def pyCmp : PyVal → PyVal → Option Ordering
  | .pint a, .pint b => some (compare a b)
  | .pint a, .pbool b => some (compare a (boolInt b))
  | .pbool a, .pint b => some (compare (boolInt a) b)
  | .pbool a, .pbool b => some (compare (boolInt a) (boolInt b))
  | .pstr a, .pstr b => some (strCmp a b)
  | .poid a, .poid b => some (natListCmp a b)
  | .ptuple xs, .ptuple ys => pyCmpList xs ys
  | _, _ => none
termination_by a _ => sizeOf a
def pyCmpList : List PyVal → List PyVal → Option Ordering
  | [], [] => some .eq
  | [], _ :: _ => some .lt
  | _ :: _, [] => some .gt
  | x :: xs, y :: ys =>
    match pyCmp x y with
    | some Ordering.eq => pyCmpList xs ys
    | some o => some o
    | none => none
termination_by xs _ => sizeOf xs
end

def pyLe (a b : PyVal) : Bool :=
  match pyCmp a b with
  | some Ordering.lt => true
  | some Ordering.eq => true
  | _ => false

def pyInsert (x : PyVal) : List PyVal → List PyVal
  | [] => [x]
  | y :: ys => if pyLe x y then x :: y :: ys else y :: pyInsert x ys

/-- Deterministic model of Python `sorted` on comparable elements
(insertion sort by `pyLe`). -/
def pySort : List PyVal → List PyVal
  | [] => []
  | x :: xs => pyInsert x (pySort xs)

/-- Ordering of `sorted(obj.items())` for a dict: pairs compare
lexicographically, and since the keys of a dict are unique strings the key
comparison alone decides. -/
def fieldLe (a b : String × PyVal) : Bool :=
  match strCmp a.1 b.1 with
  | Ordering.gt => false
  | _ => true

def fieldInsert (x : String × PyVal) : List (String × PyVal) → List (String × PyVal)
  | [] => [x]
  | y :: ys => if fieldLe x y then x :: y :: ys else y :: fieldInsert x ys

def fieldSort : List (String × PyVal) → List (String × PyVal)
  | [] => []
  | x :: xs => fieldInsert x (fieldSort xs)

def hexDigit (n : Nat) : Char :=
  if n < 10 then Char.ofNat (48 + n) else Char.ofNat (87 + n)

def hexByte (b : Nat) : List Char := [hexDigit (b / 16), hexDigit (b % 16)]

def hexChars : List Nat → List Char
  | [] => []
  | b :: bs => hexByte b ++ hexChars bs

/-- `str(ObjectId)`: the bytes rendered as lowercase hex. -/
def oidHex (bs : List Nat) : String := String.mk (hexChars bs)

theorem sizeOf_pyInsert (x : PyVal) :
    ∀ l : List PyVal, sizeOf (pyInsert x l) = 1 + sizeOf x + sizeOf l := by
  intro l
  induction l with
  | nil => simp [pyInsert]
  | cons y ys ih =>
    by_cases h : pyLe x y = true
    · simp only [pyInsert, if_pos h, List.cons.sizeOf_spec]
    · simp only [pyInsert, if_neg h, List.cons.sizeOf_spec, ih]
      omega

theorem sizeOf_pySort : ∀ l : List PyVal, sizeOf (pySort l) = sizeOf l := by
  intro l
  induction l with
  | nil => rfl
  | cons x xs ih =>
    simp only [pySort, sizeOf_pyInsert, List.cons.sizeOf_spec, ih]

theorem sizeOf_fieldInsert (x : String × PyVal) :
    ∀ l : List (String × PyVal), sizeOf (fieldInsert x l) = 1 + sizeOf x + sizeOf l := by
  intro l
  induction l with
  | nil => simp [fieldInsert]
  | cons y ys ih =>
    by_cases h : fieldLe x y = true
    · simp only [fieldInsert, if_pos h, List.cons.sizeOf_spec]
    · simp only [fieldInsert, if_neg h, List.cons.sizeOf_spec, ih]
      omega

theorem sizeOf_fieldSort : ∀ l : List (String × PyVal), sizeOf (fieldSort l) = sizeOf l := by
  intro l
  induction l with
  | nil => rfl
  | cons x xs ih =>
    simp only [fieldSort, sizeOf_fieldInsert, List.cons.sizeOf_spec, ih]

mutual
/-- `make_hashable` (lines 23-33 of `script.py`): dicts become tuples of
(key, canonical value) pairs sorted by key; lists become tuples preserving
order; sets are SORTED FIRST and then canonicalized element-wise
(`tuple(make_hashable(item) for item in sorted(obj))`); ObjectIds become
their hex strings; every other value — tuples included — passes through
unchanged. -/
def make_hashable : PyVal → PyVal
  | .pdict fs => .ptuple (mhFields (fieldSort fs))
  | .plist xs => .ptuple (mhList xs)
  | .pset xs => .ptuple (mhList (pySort xs))
  | .poid bs => .pstr (oidHex bs)
  | v => v
termination_by a => sizeOf a
decreasing_by
  all_goals simp_wf
  all_goals first
    | (rw [sizeOf_fieldSort]; omega)
    | (rw [sizeOf_pySort]; omega)
    | omega
def mhList : List PyVal → List PyVal
  | [] => []
  | x :: xs => make_hashable x :: mhList xs
termination_by xs => sizeOf xs
decreasing_by
  all_goals simp_wf
  all_goals omega
def mhFields : List (String × PyVal) → List PyVal
  | [] => []
  | (k, v) :: fs => .ptuple [.pstr k, make_hashable v] :: mhFields fs
termination_by fs => sizeOf fs
decreasing_by
  all_goals simp_wf
  all_goals omega
end

mutual
/-- The value is hashable in Python (so it can be a set element) and any
ObjectId bytes in it are in range. -/
def pyHashable : PyVal → Bool
  | .pnone => true
  | .pbool _ => true
  | .pint _ => true
  | .pstr _ => true
  | .poid bs => bs.all (fun b => decide (b < 256))
  | .ptuple xs => pyHashableList xs
  | _ => false
termination_by a => sizeOf a
def pyHashableList : List PyVal → Bool
  | [] => true
  | x :: xs => pyHashable x && pyHashableList xs
termination_by xs => sizeOf xs
end

theorem hexDigit_cmp : ∀ x < 16, ∀ y < 16,
    charCmp (hexDigit x) (hexDigit y) = compare x y := by
  decide

theorem nat_compare_nibbles (a b : Nat) :
    compare a b =
      (match compare (a / 16) (b / 16) with
       | Ordering.eq => compare (a % 16) (b % 16)
       | o => o) := by
  rcases Nat.lt_trichotomy (a / 16) (b / 16) with h | h | h
  · rw [Nat.compare_eq_lt.mpr h]
    rw [Nat.compare_eq_lt.mpr (by
      have h1 := Nat.div_add_mod a 16
      have h2 := Nat.div_add_mod b 16
      have h3 : a % 16 < 16 := Nat.mod_lt _ (by omega)
      omega)]
  · rw [Nat.compare_eq_eq.mpr h]
    have h1 := Nat.div_add_mod a 16
    have h2 := Nat.div_add_mod b 16
    rcases Nat.lt_trichotomy (a % 16) (b % 16) with hm | hm | hm
    · rw [Nat.compare_eq_lt.mpr hm, Nat.compare_eq_lt.mpr (by omega)]
    · rw [Nat.compare_eq_eq.mpr hm, Nat.compare_eq_eq.mpr (by omega)]
    · rw [Nat.compare_eq_gt.mpr hm, Nat.compare_eq_gt.mpr (by omega)]
  · rw [Nat.compare_eq_gt.mpr h]
    rw [Nat.compare_eq_gt.mpr (by
      have h1 := Nat.div_add_mod a 16
      have h2 := Nat.div_add_mod b 16
      have h3 : b % 16 < 16 := Nat.mod_lt _ (by omega)
      omega)]

theorem charListCmp_hexByte {a b : Nat} (ha : a < 256) (hb : b < 256)
    (s t : List Char) :
    charListCmp (hexByte a ++ s) (hexByte b ++ t) =
      (match compare a b with
       | Ordering.eq => charListCmp s t
       | o => o) := by
  have h1 : a / 16 < 16 := by omega
  have h2 : b / 16 < 16 := by omega
  have h3 : a % 16 < 16 := Nat.mod_lt _ (by omega)
  have h4 : b % 16 < 16 := Nat.mod_lt _ (by omega)
  simp only [hexByte, List.cons_append, List.nil_append, charListCmp]
  rw [hexDigit_cmp (a / 16) h1 (b / 16) h2, hexDigit_cmp (a % 16) h3 (b % 16) h4]
  rw [nat_compare_nibbles a b]
  cases compare (a / 16) (b / 16) <;> cases compare (a % 16) (b % 16) <;> rfl

theorem charListCmp_hexChars : ∀ (as bs : List Nat),
    (∀ a ∈ as, a < 256) → (∀ b ∈ bs, b < 256) →
    charListCmp (hexChars as) (hexChars bs) = natListCmp as bs := by
  intro as
  induction as with
  | nil =>
    intro bs _ _
    cases bs with
    | nil => rfl
    | cons b bs => simp [hexChars, hexByte, charListCmp, natListCmp]
  | cons a as ih =>
    intro bs ha hb
    cases bs with
    | nil => simp [hexChars, hexByte, charListCmp, natListCmp]
    | cons b bs =>
      rw [show hexChars (a :: as) = hexByte a ++ hexChars as from rfl]
      rw [show hexChars (b :: bs) = hexByte b ++ hexChars bs from rfl]
      rw [charListCmp_hexByte (ha a (by simp)) (hb b (by simp))]
      rw [ih bs (fun x hx => ha x (by simp [hx])) (fun x hx => hb x (by simp [hx]))]
      rw [show natListCmp (a :: as) (b :: bs) =
        (match compare a b with
         | Ordering.eq => natListCmp as bs
         | o => o) from rfl]

theorem strCmp_oidHex {as bs : List Nat}
    (ha : ∀ a ∈ as, a < 256) (hb : ∀ b ∈ bs, b < 256) :
    strCmp (oidHex as) (oidHex bs) = natListCmp as bs := by
  rw [show strCmp (oidHex as) (oidHex bs) =
    charListCmp (hexChars as) (hexChars bs) from rfl]
  exact charListCmp_hexChars as bs ha hb

theorem mh_pnone : make_hashable .pnone = .pnone := by simp [make_hashable]

theorem mh_pbool {b : Bool} : make_hashable (.pbool b) = .pbool b := by
  simp [make_hashable]

theorem mh_pint {n : Int} : make_hashable (.pint n) = .pint n := by
  simp [make_hashable]

theorem mh_pstr {s : String} : make_hashable (.pstr s) = .pstr s := by
  simp [make_hashable]

theorem mh_poid {bs : List Nat} : make_hashable (.poid bs) = .pstr (oidHex bs) := by
  simp [make_hashable]

/-- Tuples fall through `make_hashable` unchanged: the `isinstance` chain of
lines 25-32 matches none of them. -/
theorem mh_ptuple {xs : List PyVal} : make_hashable (.ptuple xs) = .ptuple xs := by
  simp [make_hashable]

theorem mh_pset {xs : List PyVal} :
    make_hashable (.pset xs) = .ptuple (mhList (pySort xs)) := by
  simp [make_hashable]

theorem pyCmp_pstr {u v : String} :
    pyCmp (.pstr u) (.pstr v) = some (strCmp u v) := by
  simp [pyCmp]

theorem pyCmp_poid {u v : List Nat} :
    pyCmp (.poid u) (.poid v) = some (natListCmp u v) := by
  simp [pyCmp]

/-- On hashable, mutually comparable values, `make_hashable` preserves the
Python comparison: identity on numbers, strings and tuples, and on ObjectIds
because hex rendering is monotone in the byte order. -/
theorem pyCmp_mh (a b : PyVal) (ha : pyHashable a = true) (hb : pyHashable b = true)
    (hc : (pyCmp a b).isSome = true) :
    pyCmp (make_hashable a) (make_hashable b) = pyCmp a b := by
  cases a <;> cases b <;>
    first
      | (simp only [pyCmp] at hc
         exact absurd hc (by decide))
      | rw [mh_pint, mh_pint]
      | rw [mh_pint, mh_pbool]
      | rw [mh_pbool, mh_pint]
      | rw [mh_pbool, mh_pbool]
      | rw [mh_pstr, mh_pstr]
      | rw [mh_ptuple, mh_ptuple]
      | (rw [mh_poid, mh_poid, pyCmp_pstr, pyCmp_poid]
         rename_i x y
         simp only [pyHashable, List.all_eq_true, decide_eq_true_eq] at ha hb
         rw [strCmp_oidHex ha hb])

theorem pyLe_mh {a b : PyVal} (ha : pyHashable a = true) (hb : pyHashable b = true)
    (hc : (pyCmp a b).isSome = true) :
    pyLe a b = pyLe (make_hashable a) (make_hashable b) := by
  unfold pyLe
  rw [pyCmp_mh a b ha hb hc]

theorem mem_pyInsert {x y : PyVal} : ∀ {l : List PyVal},
    y ∈ pyInsert x l → y = x ∨ y ∈ l := by
  intro l
  induction l with
  | nil =>
    intro h
    simp [pyInsert] at h
    exact Or.inl h
  | cons z zs ih =>
    intro h
    by_cases hle : pyLe x z = true
    · rw [pyInsert, if_pos hle] at h
      rcases List.mem_cons.mp h with he | hm
      · exact Or.inl he
      · exact Or.inr hm
    · rw [pyInsert, if_neg hle] at h
      rcases List.mem_cons.mp h with he | hm
      · exact Or.inr (by simp [he])
      · rcases ih hm with he | hm2
        · exact Or.inl he
        · exact Or.inr (by simp [hm2])

theorem mem_pySort {y : PyVal} : ∀ {l : List PyVal}, y ∈ pySort l → y ∈ l := by
  intro l
  induction l with
  | nil => intro h; simp [pySort] at h
  | cons x xs ih =>
    intro h
    rw [pySort] at h
    rcases mem_pyInsert h with he | hm
    · simp [he]
    · simp [ih hm]

theorem map_pyInsert {f : PyVal → PyVal} {x : PyVal} : ∀ {l : List PyVal},
    (∀ y ∈ l, pyLe x y = pyLe (f x) (f y)) →
    (pyInsert x l).map f = pyInsert (f x) (l.map f) := by
  intro l
  induction l with
  | nil => intro _; simp [pyInsert]
  | cons y ys ih =>
    intro hf
    have hxy : pyLe x y = pyLe (f x) (f y) := hf y (by simp)
    by_cases h : pyLe x y = true
    · rw [pyInsert, if_pos h, List.map_cons, List.map_cons,
        pyInsert, if_pos (hxy ▸ h)]
    · rw [pyInsert, if_neg h, List.map_cons, List.map_cons,
        pyInsert, if_neg (hxy ▸ h), ih (fun z hz => hf z (by simp [hz]))]

theorem map_pySort {f : PyVal → PyVal} : ∀ {l : List PyVal},
    (∀ a ∈ l, ∀ b ∈ l, pyLe a b = pyLe (f a) (f b)) →
    (pySort l).map f = pySort (l.map f) := by
  intro l
  induction l with
  | nil => intro _; simp [pySort]
  | cons x xs ih =>
    intro hf
    rw [pySort, List.map_cons, pySort]
    rw [map_pyInsert (fun y hy => hf x (by simp) y (by simp [mem_pySort hy]))]
    rw [ih (fun a ha b hb => hf a (by simp [ha]) b (by simp [hb]))]

theorem mhList_eq_map : ∀ xs : List PyVal, mhList xs = xs.map make_hashable := by
  intro xs
  induction xs with
  | nil => simp [mhList]
  | cons x xs ih => simp [mhList, ih]

/-- C5 (set-like canonicalization order): on every set input on which the
Python code is defined — elements hashable and mutually comparable, the
conditions under which `sorted(obj)` does not raise — the output of
`make_hashable` is the tuple of the elements' canonical forms in sorted
order: sorting the raw elements first (as the code does) and sorting the
canonical results (as the spec words it) coincide, because `make_hashable`
is the identity on every hashable shape except ObjectId, whose hex
rendering is strictly monotone in the byte order. -/
theorem c5_set_canonicalization (elems : List PyVal)
    (hh : ∀ x ∈ elems, pyHashable x = true)
    (hc : ∀ a ∈ elems, ∀ b ∈ elems, (pyCmp a b).isSome = true) :
    make_hashable (.pset elems) = .ptuple (pySort (elems.map make_hashable)) := by
  rw [mh_pset, mhList_eq_map]
  congr 1
  exact map_pySort (fun a ha b hb => pyLe_mh (hh a ha) (hh b hb) (hc a ha b hb))

/-- Concrete instantiation of C5 on a two-ObjectId set: the hex strings come
out sorted. -/
theorem c5_set_canonicalization_witness :
    make_hashable (.pset [.poid [16, 255], .poid [0, 1]]) =
      .ptuple (pySort ([PyVal.poid [16, 255], .poid [0, 1]].map make_hashable)) := by
  have h := c5_set_canonicalization [.poid [16, 255], .poid [0, 1]]
    (by
      intro x hx
      simp only [List.mem_cons, List.not_mem_nil, or_false] at hx
      rcases hx with rfl | rfl <;> simp [pyHashable])
    (by
      intro a ha b hb
      simp only [List.mem_cons, List.not_mem_nil, or_false] at ha hb
      rcases ha with rfl | rfl <;> rcases hb with rfl | rfl <;> simp [pyCmp])
  exact h
